import Mathlib

/-!
A shallow embedding of the kradfile parser (`src/krad.rs`) and proofs about it.

The source is a nom-based parser over a byte buffer.  Bytes are modelled as
`Nat`, byte buffers as `List Nat`.  The nom combinators used by the source
(`char`, `tag`, `take_until` from `bytes::complete`, `is_not` from
`bytes::streaming`, `map`, `map_res`, `opt`, `value`, `pair`,
`separated_pair`, `separated_list0`, `separated_list1`) are embedded with
their nom semantics: a parser returns either `(remaining, output)`, a
recoverable error (`NomErr.err`, nom's `Err::Error`), or
`NomErr.incomplete` (nom's `Err::Incomplete`, produced by streaming
combinators at end of input).  `separated_list0/1` backtrack on a
recoverable element error but propagate `Incomplete`, exactly as in nom.
-/

namespace Krad

/-- Outcome tag of a failed nom parser: `err` is nom's recoverable
`Err::Error`, `incomplete` is nom's `Err::Incomplete` (the code never
constructs `Err::Failure`). -/
inductive NomErr where
  | err
  | incomplete
deriving DecidableEq, Repr

/-- A nom parser over a byte buffer: returns the remaining input and an
output, or a `NomErr`. -/
abbrev ByteParse (α : Type) := List Nat → Except NomErr (List Nat × α)

instance instDecEqExcept {ε α : Type} [DecidableEq ε] [DecidableEq α] :
    DecidableEq (Except ε α) := fun x y =>
  match x, y with
  | .ok a, .ok b =>
    if h : a = b then .isTrue (by rw [h]) else
      .isFalse (fun hc => h (by injection hc))
  | .error e, .error f =>
    if h : e = f then .isTrue (by rw [h]) else
      .isFalse (fun hc => h (by injection hc))
  | .ok _, .error _ => .isFalse (fun hc => Except.noConfusion hc)
  | .error _, .ok _ => .isFalse (fun hc => Except.noConfusion hc)

/-- Embedding of nom's `character::complete::char` specialised to bytes. -/
def char_p (c : Nat) : ByteParse Nat := fun b =>
  match b with
  | [] => .error .err
  | x :: xs => if x = c then .ok (xs, x) else .error .err

/-- Embedding of nom's `bytes::complete::tag`. -/
def tag_p (t : List Nat) : ByteParse (List Nat) := fun b =>
  if t.isPrefixOf b then .ok (b.drop t.length, t) else .error .err

/-- Index of the first occurrence of `t` as a contiguous substring of `b`. -/
def findSubstr (t : List Nat) : List Nat → Option Nat
  | [] => if t.isPrefixOf ([] : List Nat) then some 0 else none
  | x :: xs =>
    if t.isPrefixOf (x :: xs) then some 0 else (findSubstr t xs).map (· + 1)

/-- Embedding of nom's `bytes::complete::take_until`: consume up to (not
including) the first occurrence of `t`; recoverable error if `t` does not
occur. -/
def take_until (t : List Nat) : ByteParse (List Nat) := fun b =>
  match findSubstr t b with
  | some n => .ok (b.drop n, b.take n)
  | none => .error .err

/-- Index of the first byte of `b` that belongs to `set`. -/
def findIdxIn (set : List Nat) : List Nat → Option Nat
  | [] => none
  | x :: xs => if x ∈ set then some 0 else (findIdxIn set xs).map (· + 1)

/-- Embedding of nom's `bytes::streaming::is_not`: consume bytes until one
in `set` is found; recoverable error on an empty match, `Incomplete` when
the input ends before any byte of `set` appears. -/
def is_not (set : List Nat) : ByteParse (List Nat) := fun b =>
  match findIdxIn set b with
  | some 0 => .error .err
  | some n => .ok (b.drop n, b.take n)
  | none => .error .incomplete

/-- Embedding of nom's `combinator::map`. -/
def map_p {α β : Type} (p : ByteParse α) (f : α → β) : ByteParse β := fun b =>
  match p b with
  | .ok (i, o) => .ok (i, f o)
  | .error e => .error e

/-- Embedding of nom's `combinator::value`. -/
def value_p {α β : Type} (v : β) (p : ByteParse α) : ByteParse β :=
  map_p p (fun _ => v)

/-- Embedding of nom's `combinator::opt`: a recoverable error becomes
`none` without consuming input; `Incomplete` propagates. -/
def opt_p {α : Type} (p : ByteParse α) : ByteParse (Option α) := fun b =>
  match p b with
  | .ok (i, o) => .ok (i, some o)
  | .error .err => .ok (b, none)
  | .error .incomplete => .error .incomplete

/-- Embedding of nom's `sequence::pair`. -/
def pair_p {α β : Type} (p : ByteParse α) (q : ByteParse β) :
    ByteParse (α × β) := fun b =>
  match p b with
  | .ok (i, o1) =>
    match q i with
    | .ok (i2, o2) => .ok (i2, (o1, o2))
    | .error e => .error e
  | .error e => .error e

/-- Embedding of nom's `sequence::separated_pair`. -/
def separated_pair_p {α β γ : Type} (p : ByteParse α) (s : ByteParse γ)
    (q : ByteParse β) : ByteParse (α × β) := fun b =>
  match p b with
  | .ok (i, o1) =>
    match s i with
    | .ok (i1, _) =>
      match q i1 with
      | .ok (i2, o2) => .ok (i2, (o1, o2))
      | .error e => .error e
    | .error e => .error e
  | .error e => .error e

/-- The shared loop of nom's `separated_list0`/`separated_list1`, after the
first element has been parsed: repeatedly parse a separator and an element;
a recoverable error of either returns the list accumulated so far with the
input positioned before the separator; `Incomplete` propagates; a separator
match that consumes nothing is an error (nom's infinite-loop guard).  The
`fuel` argument only bounds the iteration count: every iteration consumes
at least one byte, so fuel `input length + 1` (what the callers pass) makes
the fuel-exhaustion branch unreachable. -/
def sepListLoop {α γ : Type} (sep : ByteParse γ) (p : ByteParse α) :
    Nat → List Nat → List α → Except NomErr (List Nat × List α)
  | 0, _, _ => .error .err
  | fuel + 1, i, acc =>
    match sep i with
    | .error .err => .ok (i, acc)
    | .error .incomplete => .error .incomplete
    | .ok (i1, _) =>
      if i1.length = i.length then .error .err
      else
        match p i1 with
        | .error .err => .ok (i, acc)
        | .error .incomplete => .error .incomplete
        | .ok (i2, o) => sepListLoop sep p fuel i2 (acc ++ [o])

/-- Embedding of nom's `multi::separated_list0`: a recoverable error of the
first element yields the empty list. -/
def separated_list0 {α γ : Type} (sep : ByteParse γ) (p : ByteParse α) :
    ByteParse (List α) := fun b =>
  match p b with
  | .error .err => .ok (b, [])
  | .error .incomplete => .error .incomplete
  | .ok (i1, o) => sepListLoop sep p (i1.length + 1) i1 [o]

/-- Embedding of nom's `multi::separated_list1`: any error of the first
element propagates. -/
def separated_list1 {α γ : Type} (sep : ByteParse γ) (p : ByteParse α) :
    ByteParse (List α) := fun b =>
  match p b with
  | .error e => .error e
  | .ok (i1, o) => sepListLoop sep p (i1.length + 1) i1 [o]

/-- A decomposition of a kanji into its constituent radicals
(`Decomposition` in the source). -/
structure Decomposition where
  kanji : String
  radicals : List String
deriving DecidableEq, Repr

/-- The module's error type (`KradError` in the source).  `jis` is the
"Invalid JIS X 0213 codepoint" variant, `eucJp` the "Invalid EUC-JP
codepoint" variant, `parse` the "Error while parsing kradfile" variant and
`ioErr` the "Error while reading kradfile" variant. -/
inductive KradError where
  | jis
  | eucJp
  | parse
  | ioErr
deriving DecidableEq, Repr

/-- Modelled from the spec: the two external collaborators of the core,
`lookup_legacy_codepoint` (the `jis_to_utf8` two-byte codepoint table from
the `jis213` module, which is outside the parser source) and
`decode_multibyte_strict` (the strict EUC-JP decoder from the external
`encoding` crate).  Both are pure functions; `none` models their failure
outcome. -/
structure Codecs where
  jis_to_utf8 : Nat → Option Char
  eucjp_decode : List Nat → Option String

/-- Embedding of `bytes_to_u32`: fold the bytes big-endian,
least-significant last (the source iterates the reversed slice, adding
`byte << 8*i`).  The only call site passes 2-byte slices, where the `u32`
arithmetic of the source cannot overflow, so plain `Nat` arithmetic agrees
with it. -/
def bytes_to_u32 (b : List Nat) : Nat :=
  (b.reverse.enum).foldl (fun out p => out + p.2 <<< (8 * p.1)) 0

/-- Embedding of `decode_jis`: 2-byte tokens go through the codepoint
table, 3-byte tokens through the strict EUC-JP decoder, any other length
fails immediately with `KradError.jis`. -/
def decode_jis (C : Codecs) (b : List Nat) : Except KradError String :=
  match b.length with
  | 2 =>
    match C.jis_to_utf8 (bytes_to_u32 b) with
    | some c => .ok (String.mk [c])
    | none => .error .jis
  | 3 =>
    match C.eucjp_decode b with
    | some s => .ok s
    | none => .error .eucJp
  | _ => .error .jis

/-- Embedding of nom's `combinator::map_res` specialised to `decode_jis`'s
error type: a failing result function becomes a recoverable parse error. -/
def map_res {α β : Type} (p : ByteParse α) (f : α → Except KradError β) :
    ByteParse β := fun b =>
  match p b with
  | .ok (i, o) =>
    match f o with
    | .ok v => .ok (i, v)
    | .error _ => .error .err
  | .error e => .error e

/-- The `SEPARATOR` constant, the bytes of the string " : ". -/
def SEPARATOR : List Nat := [0x20, 0x3A, 0x20]

/-- Embedding of `kanji`: bytes up to the first space, decoded. -/
def kanji (C : Codecs) : ByteParse String :=
  map_res (take_until [0x20]) (decode_jis C)

/-- Embedding of `radical`: bytes up to the first space or newline
(streaming), decoded. -/
def radical (C : Codecs) : ByteParse String :=
  map_res (is_not [0x20, 0x0A]) (decode_jis C)

/-- Embedding of `radicals`: one or more radicals separated by spaces. -/
def radicals (C : Codecs) : ByteParse (List String) :=
  separated_list1 (char_p 0x20) (radical C)

/-- Embedding of `kanji_line`: a kanji, the separator, the radicals. -/
def kanji_line (C : Codecs) : ByteParse Decomposition :=
  map_p (separated_pair_p (kanji C) (tag_p SEPARATOR) (radicals C))
    (fun p => ⟨p.1, p.2⟩)

/-- Embedding of `comment`: a `#` byte then everything before the next
newline. -/
def comment : ByteParse Unit :=
  value_p () (pair_p (char_p 0x23) (take_until [0x0A]))

/-- Embedding of `comments`: zero or more comment lines separated by
newlines. -/
def comments : ByteParse Unit :=
  value_p () (separated_list0 (char_p 0x0A) comment)

/-- Embedding of `next_kanji`: optional comments, an optional newline, then
a kanji line. -/
def next_kanji (C : Codecs) : ByteParse Decomposition :=
  map_p (separated_pair_p comments (opt_p (char_p 0x0A)) (kanji_line C))
    (fun p => p.2)

/-- Embedding of `lines`: one or more `next_kanji` separated by
newlines. -/
def lines (C : Codecs) : ByteParse (List Decomposition) :=
  separated_list1 (char_p 0x0A) (next_kanji C)

/-- Embedding of `parse_bytes`: run `lines`, drop the remaining input, map
any nom error to `KradError.parse`. -/
def parse_bytes (C : Codecs) (b : List Nat) :
    Except KradError (List Decomposition) :=
  match lines C b with
  | .ok (_, o) => .ok o
  | .error _ => .error .parse

/-- Embedding of `parse_file_implementation`: the file read is an external
effect, modelled by its outcome (`none` is a read failure, which becomes
`KradError.ioErr` via the `From<std::io::Error>` conversion); on a
successful read the bytes go to `parse_bytes`. -/
def parse_file_implementation (C : Codecs) (readResult : Option (List Nat)) :
    Except KradError (List Decomposition) :=
  match readResult with
  | none => .error .ioErr
  | some b => parse_bytes C b

/-- Embedding of `parse_file`, which just delegates. -/
def parse_file (C : Codecs) (readResult : Option (List Nat)) :
    Except KradError (List Decomposition) :=
  parse_file_implementation C readResult

/-- A concrete instance of the external collaborators covering the
codepoints used in the source's tests and the spec's concrete scenarios
(`0xB0A1` 亜, `0xA1C3` ｜, `0xB0EC` 一, `0xB8FD` 口, `0xD2B1` 勹, and the
EUC-JP sequence `8F B0 A1` 丂); every other code is unmapped. -/
def exampleCodecs : Codecs where
  jis_to_utf8 := fun code =>
    if code = 0xB0A1 then some '亜'
    else if code = 0xA1C3 then some '｜'
    else if code = 0xB0EC then some '一'
    else if code = 0xB8FD then some '口'
    else if code = 0xD2B1 then some '勹'
    else none
  eucjp_decode := fun b =>
    if b = [0x8F, 0xB0, 0xA1] then some "丂" else none

/-- A raw record as laid out on a data line: the kanji token and the
radical tokens. -/
structure RawRec where
  k : List Nat
  rs : List (List Nat)

/-- The radical tokens joined by single spaces. -/
def joinSep : List (List Nat) → List Nat
  | [] => []
  | [r] => r
  | r :: rest => r ++ 0x20 :: joinSep rest

/-- The tail of a radical list rendering: every token preceded by a
space. -/
def radTailN (rs : List (List Nat)) : List Nat :=
  (rs.map (fun t => 0x20 :: t)).flatten

/-- Bytes of a data line (with its terminating newline). -/
def renderRec (r : RawRec) : List Nat :=
  r.k ++ SEPARATOR ++ joinSep r.rs ++ [0x0A]

/-- Bytes of a comment line (with its terminating newline). -/
def renderComment (body : List Nat) : List Nat := 0x23 :: body ++ [0x0A]

/-- Bytes of a run of comment lines. -/
def renderComments (cls : List (List Nat)) : List Nat :=
  (cls.map renderComment).flatten

/-- A block: the comment lines preceding a data line, and the data line. -/
abbrev Block := List (List Nat) × RawRec

/-- Bytes of a block. -/
def renderBlock (b : Block) : List Nat :=
  renderComments b.1 ++ renderRec b.2

/-- Bytes of a list of blocks. -/
def renderBlocks (bs : List Block) : List Nat :=
  (bs.map renderBlock).flatten

/-- A comment body never contains the line terminator. -/
def goodBody (body : List Nat) : Prop := 0x0A ∉ body

/-- A token as it can appear in a field of a well-formed data line:
non-empty, without space or newline bytes, and accepted by the decoder. -/
def goodTok (C : Codecs) (t : List Nat) : Prop :=
  t ≠ [] ∧ 0x20 ∉ t ∧ 0x0A ∉ t ∧ ∃ s, decode_jis C t = .ok s

/-- A well-formed raw record: a good kanji token not starting with the
comment marker, and one or more good radical tokens. -/
def goodRec (C : Codecs) (r : RawRec) : Prop :=
  goodTok C r.k ∧ r.k.head? ≠ some 0x23 ∧ r.rs ≠ [] ∧ ∀ t ∈ r.rs, goodTok C t

/-- A well-formed block. -/
def goodBlock (C : Codecs) (b : Block) : Prop :=
  (∀ body ∈ b.1, goodBody body) ∧ goodRec C b.2

/-- The decoded text of a token known to decode. -/
def decodeOk (C : Codecs) (t : List Nat) : String :=
  match decode_jis C t with
  | .ok s => s
  | .error _ => ""

/-- The decomposition a well-formed raw record resolves to. -/
def decOf (C : Codecs) (r : RawRec) : Decomposition :=
  ⟨decodeOk C r.k, r.rs.map (decodeOk C)⟩

theorem findSubstr_single {c : Nat} {k : List Nat} (rest : List Nat)
    (h : c ∉ k) : findSubstr [c] (k ++ c :: rest) = some k.length := by
  induction k with
  | nil => simp [findSubstr, List.isPrefixOf]
  | cons x xs ih =>
    have hx : c ≠ x := fun hc => h (by simp [hc])
    have hxs : c ∉ xs := fun hc => h (by simp [hc])
    simp [findSubstr, List.isPrefixOf, hx, ih hxs]

theorem findSubstr_none {c : Nat} {k : List Nat} (h : c ∉ k) :
    findSubstr [c] k = none := by
  induction k with
  | nil => simp [findSubstr, List.isPrefixOf]
  | cons x xs ih =>
    have hx : c ≠ x := fun hc => h (by simp [hc])
    have hxs : c ∉ xs := fun hc => h (by simp [hc])
    simp [findSubstr, List.isPrefixOf, hx, ih hxs]

theorem take_until_at {c : Nat} {k : List Nat} (rest : List Nat)
    (h : c ∉ k) : take_until [c] (k ++ c :: rest) = .ok (c :: rest, k) := by
  simp [take_until, findSubstr_single rest h, List.drop_left, List.take_left]

theorem take_until_none {c : Nat} {k : List Nat} (h : c ∉ k) :
    take_until [c] k = .error .err := by
  simp [take_until, findSubstr_none h]

theorem findIdxIn_at {set k : List Nat} {d : Nat} (rest : List Nat)
    (hk : ∀ x ∈ k, x ∉ set) (hd : d ∈ set) :
    findIdxIn set (k ++ d :: rest) = some k.length := by
  induction k with
  | nil => simp [findIdxIn, hd]
  | cons x xs ih =>
    have hx : x ∉ set := hk x (by simp)
    have hxs : ∀ y ∈ xs, y ∉ set := fun y hy => hk y (by simp [hy])
    simp [findIdxIn, hx, ih hxs]

theorem findIdxIn_none {set k : List Nat} (hk : ∀ x ∈ k, x ∉ set) :
    findIdxIn set k = none := by
  induction k with
  | nil => simp [findIdxIn]
  | cons x xs ih =>
    have hx : x ∉ set := hk x (by simp)
    have hxs : ∀ y ∈ xs, y ∉ set := fun y hy => hk y (by simp [hy])
    simp [findIdxIn, hx, ih hxs]

theorem is_not_at {set k : List Nat} {d : Nat} (rest : List Nat)
    (hne : k ≠ []) (hk : ∀ x ∈ k, x ∉ set) (hd : d ∈ set) :
    is_not set (k ++ d :: rest) = .ok (d :: rest, k) := by
  obtain ⟨y, ys, rfl⟩ := List.exists_cons_of_ne_nil hne
  simp only [is_not, findIdxIn_at rest hk hd]
  simp [List.drop_left, List.take_left]

theorem is_not_incomplete {set k : List Nat} (hk : ∀ x ∈ k, x ∉ set) :
    is_not set k = .error .incomplete := by
  simp [is_not, findIdxIn_none hk]

theorem is_not_err {set : List Nat} {d : Nat} (rest : List Nat)
    (hd : d ∈ set) : is_not set (d :: rest) = .error .err := by
  have : findIdxIn set (d :: rest) = some 0 := by simp [findIdxIn, hd]
  simp [is_not, this]

theorem goodTok_decode {C : Codecs} {t : List Nat} (h : goodTok C t) :
    decode_jis C t = .ok (decodeOk C t) := by
  obtain ⟨-, -, -, s, hs⟩ := h
  simp [decodeOk, hs]

theorem goodTok_not_in {C : Codecs} {t : List Nat} (h : goodTok C t) :
    ∀ x ∈ t, x ∉ ([0x20, 0x0A] : List Nat) := by
  obtain ⟨-, h20, h0A, -⟩ := h
  intro x hx hmem
  rcases List.mem_pair.mp hmem with rfl | rfl
  · exact h20 hx
  · exact h0A hx

theorem joinSep_eq_radTailN (r : List Nat) (rs : List (List Nat)) :
    joinSep (r :: rs) = r ++ radTailN rs := by
  induction rs generalizing r with
  | nil => simp [joinSep, radTailN]
  | cons x xs ih => simp [joinSep, radTailN, ih x, radTailN]

theorem radTailN_cons (x : List Nat) (xs : List (List Nat)) :
    radTailN (x :: xs) = 0x20 :: (x ++ radTailN xs) := by
  simp [radTailN]

/-- The remaining input after a radical token in a rendered radicals list
starts with a space or a newline byte. -/
theorem radTail_head (rs : List (List Nat)) (rest : List Nat) :
    (radTailN rs ++ 0x0A :: rest).head? = some 0x20 ∨
      (radTailN rs ++ 0x0A :: rest).head? = some 0x0A := by
  cases rs with
  | nil => simp [radTailN]
  | cons x xs => simp [radTailN_cons]

theorem char_p_ok (c : Nat) (rest : List Nat) :
    char_p c (c :: rest) = .ok (rest, c) := by simp [char_p]

theorem char_p_ne {c d : Nat} (rest : List Nat) (h : d ≠ c) :
    char_p c (d :: rest) = .error .err := by simp [char_p, h]

theorem char_p_nil (c : Nat) : char_p c [] = .error .err := rfl

theorem radical_at {C : Codecs} {r : List Nat} (h : goodTok C r)
    (tail : List Nat)
    (htail : tail.head? = some 0x20 ∨ tail.head? = some 0x0A) :
    radical C (r ++ tail) = .ok (tail, decodeOk C r) := by
  obtain ⟨d, tl, rfl⟩ : ∃ d tl, tail = d :: tl := by
    cases tail with
    | nil => simp at htail
    | cons d tl => exact ⟨d, tl, rfl⟩
  have hd : d ∈ ([0x20, 0x0A] : List Nat) := by
    rcases htail with h' | h' <;> simp_all
  simp only [radical, map_res, is_not_at tl h.1 (goodTok_not_in h) hd,
    goodTok_decode h]

theorem radLoop {C : Codecs} : ∀ rs : List (List Nat),
    (∀ t ∈ rs, goodTok C t) → ∀ (rest : List Nat) (out : List String)
    (fuel : Nat), (radTailN rs ++ 0x0A :: rest).length < fuel →
    sepListLoop (char_p 0x20) (radical C) fuel (radTailN rs ++ 0x0A :: rest)
      out = .ok (0x0A :: rest, out ++ rs.map (decodeOk C)) := by
  intro rs
  induction rs with
  | nil =>
    intro _ rest out fuel hfuel
    cases fuel with
    | zero => omega
    | succ f => simp [radTailN, sepListLoop, char_p]
  | cons x xs ih =>
    intro hg rest out fuel hfuel
    cases fuel with
    | zero => omega
    | succ f =>
      rw [radTailN_cons] at hfuel ⊢
      have hx : goodTok C x := hg x (by simp)
      have hxs : ∀ t ∈ xs, goodTok C t := fun t ht => hg t (by simp [ht])
      have hrad : radical C (x ++ (radTailN xs ++ 0x0A :: rest))
          = .ok (radTailN xs ++ 0x0A :: rest, decodeOk C x) :=
        radical_at hx _ (radTail_head xs rest)
      have hrec : (radTailN xs ++ 0x0A :: rest).length < f := by
        simp at hfuel ⊢; omega
      simp only [List.cons_append, List.append_assoc]
      simp only [sepListLoop, char_p_ok]
      rw [if_neg (by simp only [List.length_cons, List.length_append]; omega)]
      simp only [hrad]
      rw [ih hxs rest (out ++ [decodeOk C x]) f hrec]
      simp

theorem radicals_at {C : Codecs} {rs : List (List Nat)}
    (hg : ∀ t ∈ rs, goodTok C t) (hne : rs ≠ []) (rest : List Nat) :
    radicals C (joinSep rs ++ 0x0A :: rest)
      = .ok (0x0A :: rest, rs.map (decodeOk C)) := by
  obtain ⟨r, rs', rfl⟩ := List.exists_cons_of_ne_nil hne
  rw [joinSep_eq_radTailN]
  have hr : goodTok C r := hg r (by simp)
  have hrad : radical C (r ++ (radTailN rs' ++ 0x0A :: rest))
      = .ok (radTailN rs' ++ 0x0A :: rest, decodeOk C r) :=
    radical_at hr _ (radTail_head rs' rest)
  simp only [radicals, separated_list1, List.append_assoc]
  simp only [hrad]
  rw [radLoop rs' (fun t ht => hg t (by simp [ht])) rest [decodeOk C r] _
    (by omega)]
  simp

theorem radical_incomplete {C : Codecs} {r : List Nat} (h : goodTok C r) :
    radical C r = .error .incomplete := by
  simp only [radical, map_res, is_not_incomplete (goodTok_not_in h)]

theorem radLoopInc {C : Codecs} : ∀ rs : List (List Nat),
    (∀ t ∈ rs, goodTok C t) → rs ≠ [] →
    ∀ (out : List String) (fuel : Nat), (radTailN rs).length < fuel →
    sepListLoop (char_p 0x20) (radical C) fuel (radTailN rs) out
      = .error .incomplete := by
  intro rs
  induction rs with
  | nil => intro _ h; exact absurd rfl h
  | cons x xs ih =>
    intro hg _ out fuel hfuel
    cases fuel with
    | zero => omega
    | succ f =>
      rw [radTailN_cons] at hfuel ⊢
      have hx : goodTok C x := hg x (by simp)
      simp only [sepListLoop, char_p_ok]
      rw [if_neg (by simp only [List.length_cons]; omega)]
      cases xs with
      | nil =>
        simp only [radTailN, List.map_nil, List.flatten_nil, List.append_nil]
        simp only [radical_incomplete hx]
      | cons y ys =>
        have hrad : radical C (x ++ radTailN (y :: ys))
            = .ok (radTailN (y :: ys), decodeOk C x) := by
          have := radical_at hx (radTailN (y :: ys))
            (Or.inl (by simp [radTailN_cons]))
          simpa using this
        simp only [hrad]
        rw [ih (fun t ht => hg t (by simp [ht])) (by simp)
          (out ++ [decodeOk C x]) f (by simp at hfuel ⊢; omega)]

theorem radicals_incomplete {C : Codecs} {rs : List (List Nat)}
    (hg : ∀ t ∈ rs, goodTok C t) (hne : rs ≠ []) :
    radicals C (joinSep rs) = .error .incomplete := by
  obtain ⟨r, rs', rfl⟩ := List.exists_cons_of_ne_nil hne
  rw [joinSep_eq_radTailN]
  have hr : goodTok C r := hg r (by simp)
  simp only [radicals, separated_list1]
  cases rs' with
  | nil =>
    simp only [radTailN, List.map_nil, List.flatten_nil, List.append_nil]
    simp only [radical_incomplete hr]
  | cons y ys =>
    have hrad : radical C (r ++ radTailN (y :: ys))
        = .ok (radTailN (y :: ys), decodeOk C r) := by
      have := radical_at hr (radTailN (y :: ys))
        (Or.inl (by simp [radTailN_cons]))
      simpa using this
    simp only [hrad]
    rw [radLoopInc (y :: ys) (fun t ht => hg t (by simp [ht])) (by simp)
      [decodeOk C r] _ (by omega)]

theorem kanji_at {C : Codecs} {k : List Nat} (h20 : 0x20 ∉ k)
    (rest : List Nat) {s : String} (hdec : decode_jis C k = .ok s) :
    kanji C (k ++ 0x20 :: rest) = .ok (0x20 :: rest, s) := by
  simp only [kanji, map_res, take_until_at rest h20, hdec]

theorem kanji_errDecode {C : Codecs} {k : List Nat} (h20 : 0x20 ∉ k)
    (rest : List Nat) {e : KradError} (hdec : decode_jis C k = .error e) :
    kanji C (k ++ 0x20 :: rest) = .error .err := by
  simp only [kanji, map_res, take_until_at rest h20, hdec]

theorem kanji_noSpace {C : Codecs} {b : List Nat} (h20 : 0x20 ∉ b) :
    kanji C b = .error .err := by
  simp only [kanji, map_res, take_until_none h20]

theorem tag_sep_ok (rest : List Nat) :
    tag_p SEPARATOR (0x20 :: 0x3A :: 0x20 :: rest) = .ok (rest, SEPARATOR) := by
  simp [tag_p, SEPARATOR, List.isPrefixOf]

theorem tag_sep_err {u : Nat} (rest : List Nat) (h : u ≠ 0x3A) :
    tag_p SEPARATOR (0x20 :: u :: rest) = .error .err := by
  simp [tag_p, SEPARATOR, List.isPrefixOf, Ne.symm h]

theorem kanji_line_at {C : Codecs} {r : RawRec} (h : goodRec C r)
    (rest : List Nat) :
    kanji_line C (r.k ++ SEPARATOR ++ joinSep r.rs ++ 0x0A :: rest)
      = .ok (0x0A :: rest, decOf C r) := by
  obtain ⟨hk, hk23, hrsne, hrs⟩ := h
  have e1 : r.k ++ SEPARATOR ++ joinSep r.rs ++ 0x0A :: rest
      = r.k ++ 0x20 :: (0x3A :: 0x20 :: (joinSep r.rs ++ 0x0A :: rest)) := by
    simp [SEPARATOR]
  rw [e1]
  simp only [kanji_line, map_p, separated_pair_p,
    kanji_at hk.2.1 _ (goodTok_decode hk), tag_sep_ok,
    radicals_at hrs hrsne rest, decOf]

theorem comment_at {body : List Nat} (h : goodBody body) (rest : List Nat) :
    comment (0x23 :: (body ++ 0x0A :: rest)) = .ok (0x0A :: rest, ()) := by
  simp only [comment, value_p, map_p, pair_p, char_p_ok,
    take_until_at rest h]

theorem comment_fail {b : List Nat} (h : b.head? ≠ some 0x23) :
    comment b = .error .err := by
  cases b with
  | nil => rfl
  | cons x xs =>
    have hx : x ≠ 0x23 := by simpa using h
    simp only [comment, value_p, map_p, pair_p, char_p_ne xs hx]

theorem renderComments_cons (c : List Nat) (cs : List (List Nat)) :
    renderComments (c :: cs) = 0x23 :: (c ++ 0x0A :: renderComments cs) := by
  simp [renderComments, renderComment]

theorem commentsLoop : ∀ cls : List (List Nat),
    (∀ body ∈ cls, goodBody body) → ∀ (rest : List Nat),
    rest.head? ≠ some 0x23 → ∀ (out : List Unit) (fuel : Nat),
    (renderComments cls ++ rest).length < fuel →
    sepListLoop (char_p 0x0A) comment fuel
      (0x0A :: (renderComments cls ++ rest)) out
      = .ok (0x0A :: rest, out ++ cls.map (fun _ => ())) := by
  intro cls
  induction cls with
  | nil =>
    intro _ rest hrest out fuel hfuel
    cases fuel with
    | zero => omega
    | succ f =>
      simp only [renderComments, List.map_nil, List.flatten_nil,
        List.nil_append]
      simp only [sepListLoop, char_p_ok]
      rw [if_neg (by simp)]
      simp [comment_fail hrest]
  | cons c cs ih =>
    intro hg rest hrest out fuel hfuel
    cases fuel with
    | zero => omega
    | succ f =>
      rw [renderComments_cons] at hfuel ⊢
      have hc : goodBody c := hg c (by simp)
      have hcs : ∀ body ∈ cs, goodBody body := fun b hb => hg b (by simp [hb])
      simp only [List.cons_append, List.append_assoc]
      simp only [sepListLoop, char_p_ok]
      rw [if_neg (by simp only [List.length_cons]; omega)]
      have hcom : comment (0x23 :: (c ++ 0x0A :: (renderComments cs ++ rest)))
          = .ok (0x0A :: (renderComments cs ++ rest), ()) := by
        have := comment_at hc (renderComments cs ++ rest)
        simpa using this
      simp only [hcom]
      rw [ih hcs rest hrest (out ++ [()]) f (by simp at hfuel ⊢; omega)]
      simp

theorem comments_at (cls : List (List Nat))
    (hg : ∀ body ∈ cls, goodBody body) {rest : List Nat}
    (hrest : rest.head? ≠ some 0x23) :
    comments (renderComments cls ++ rest)
      = .ok (if cls = [] then rest else 0x0A :: rest, ()) := by
  cases cls with
  | nil =>
    simp only [renderComments, List.map_nil, List.flatten_nil,
      List.nil_append, if_pos rfl]
    simp [comments, value_p, map_p, separated_list0, comment_fail hrest]
  | cons c cs =>
    rw [renderComments_cons]
    have hc : goodBody c := hg c (by simp)
    have hcs : ∀ body ∈ cs, goodBody body := fun b hb => hg b (by simp [hb])
    have hcom : comment (0x23 :: (c ++ 0x0A :: (renderComments cs ++ rest)))
        = .ok (0x0A :: (renderComments cs ++ rest), ()) := by
      have := comment_at hc (renderComments cs ++ rest)
      simpa using this
    simp only [List.cons_append, List.append_assoc] at hcom ⊢
    simp only [comments, value_p, map_p, separated_list0, hcom]
    rw [commentsLoop cs hcs rest hrest [()] _ (by simp only [List.length_cons]; omega)]
    simp

theorem comments_at_nil {rest : List Nat}
    (hrest : rest.head? ≠ some 0x23) :
    comments rest = .ok (rest, ()) := by
  have := comments_at [] (by simp) hrest
  simpa [renderComments] using this

theorem comments_at_cons {c : List Nat} {cs : List (List Nat)}
    {rest : List Nat} (hg : ∀ body ∈ c :: cs, goodBody body)
    (hrest : rest.head? ≠ some 0x23) :
    comments (renderComments (c :: cs) ++ rest) = .ok (0x0A :: rest, ()) := by
  have := comments_at (c :: cs) hg hrest
  simpa using this

theorem opt_nl_none {b : List Nat} (h : b.head? ≠ some 0x0A) :
    opt_p (char_p 0x0A) b = .ok (b, none) := by
  cases b with
  | nil => rfl
  | cons x xs =>
    have hx : x ≠ 0x0A := by simpa using h
    simp [opt_p, char_p_ne xs hx]

theorem opt_nl_some (b : List Nat) :
    opt_p (char_p 0x0A) (0x0A :: b) = .ok (b, some 0x0A) := by
  simp [opt_p, char_p_ok]

theorem nk_block {C : Codecs} {cs : List (List Nat)} {r : RawRec}
    (hcs : ∀ body ∈ cs, goodBody body) (hr : goodRec C r) (rest : List Nat) :
    next_kanji C (renderComments cs ++ (renderRec r ++ rest))
      = .ok (0x0A :: rest, decOf C r) := by
  obtain ⟨hk, hk23, hrsne, hrs⟩ := hr
  have hkne : r.k ≠ [] := hk.1
  obtain ⟨a, as, hkeq⟩ := List.exists_cons_of_ne_nil hkne
  have ha0A : a ≠ 0x0A := fun hc => hk.2.2.1 (by rw [hkeq, hc]; simp)
  have ha23 : a ≠ 0x23 := by
    intro hc; apply hk23; rw [hkeq, hc]; simp
  have hline : renderRec r ++ rest
      = r.k ++ SEPARATOR ++ joinSep r.rs ++ 0x0A :: rest := by
    simp [renderRec]
  have hhead : (renderRec r ++ rest).head? = some a := by
    rw [hline, hkeq]; simp
  have hkl : kanji_line C (renderRec r ++ rest) = .ok (0x0A :: rest, decOf C r) := by
    rw [hline]; exact kanji_line_at ⟨hk, hk23, hrsne, hrs⟩ rest
  have hrest23 : (renderRec r ++ rest).head? ≠ some 0x23 := by
    rw [hhead]; simpa using ha23
  have hrest0A : (renderRec r ++ rest).head? ≠ some 0x0A := by
    rw [hhead]; simpa using ha0A
  cases cs with
  | nil =>
    simp only [renderComments, List.map_nil, List.flatten_nil, List.nil_append]
    simp only [next_kanji, map_p, separated_pair_p,
      comments_at_nil hrest23, opt_nl_none hrest0A, hkl]
  | cons c cs' =>
    simp only [next_kanji, map_p, separated_pair_p,
      comments_at_cons hcs hrest23, opt_nl_some, hkl]

theorem nk_of_line_err {C : Codecs} {cls : List (List Nat)} {line : List Nat}
    {e : NomErr} (hcls : ∀ body ∈ cls, goodBody body)
    (h23 : line.head? ≠ some 0x23) (h0A : line.head? ≠ some 0x0A)
    (hline : kanji_line C line = .error e) :
    next_kanji C (renderComments cls ++ line) = .error e := by
  cases cls with
  | nil =>
    simp only [renderComments, List.map_nil, List.flatten_nil, List.nil_append]
    simp only [next_kanji, map_p, separated_pair_p,
      comments_at_nil h23, opt_nl_none h0A, hline]
  | cons c cs' =>
    simp only [next_kanji, map_p, separated_pair_p,
      comments_at_cons hcls h23, opt_nl_some, hline]

theorem kanji_line_nil {C : Codecs} : kanji_line C [] = .error .err := by
  simp [kanji_line, map_p, separated_pair_p, kanji_noSpace
    (by simp : 0x20 ∉ ([] : List Nat))]

theorem nk_trail {C : Codecs} (cls : List (List Nat))
    (hg : ∀ body ∈ cls, goodBody body) :
    next_kanji C (renderComments cls) = .error .err := by
  have h := nk_of_line_err hg (by simp) (by simp) (kanji_line_nil (C := C))
  simpa using h

theorem kanji_line_noNewline {C : Codecs} {k : List Nat}
    {rs : List (List Nat)} (hk : goodTok C k)
    (hrs : ∀ t ∈ rs, goodTok C t) (hrsne : rs ≠ []) :
    kanji_line C (k ++ SEPARATOR ++ joinSep rs) = .error .incomplete := by
  have e1 : k ++ SEPARATOR ++ joinSep rs
      = k ++ 0x20 :: (0x3A :: 0x20 :: joinSep rs) := by simp [SEPARATOR]
  rw [e1]
  simp only [kanji_line, map_p, separated_pair_p,
    kanji_at hk.2.1 _ (goodTok_decode hk), tag_sep_ok,
    radicals_incomplete hrs hrsne]

theorem kanji_line_badKanji {C : Codecs} {k : List Nat} (rest : List Nat)
    {e : KradError} (h20 : 0x20 ∉ k) (hdec : decode_jis C k = .error e) :
    kanji_line C (k ++ 0x20 :: rest) = .error .err := by
  simp only [kanji_line, map_p, separated_pair_p,
    kanji_errDecode h20 rest hdec]

theorem kanji_line_noSep {C : Codecs} {k : List Nat} {u : Nat}
    (rest : List Nat) (h20 : 0x20 ∉ k) (hu : u ≠ 0x3A) :
    kanji_line C (k ++ 0x20 :: u :: rest) = .error .err := by
  cases hdec : decode_jis C k with
  | error e =>
    exact kanji_line_badKanji (u :: rest) h20 hdec
  | ok s =>
    simp only [kanji_line, map_p, separated_pair_p,
      kanji_at h20 (u :: rest) hdec, tag_sep_err rest hu]

theorem kanji_line_emptyKanji {C : Codecs} (rest : List Nat) :
    kanji_line C (0x20 :: rest) = .error .err := by
  have htu : take_until [0x20] (0x20 :: rest) = .ok (0x20 :: rest, []) := by
    have := take_until_at (c := 0x20) (k := []) rest (by simp)
    simpa using this
  simp only [kanji_line, map_p, separated_pair_p, kanji, map_res, htu]
  rfl

theorem kanji_line_emptyRadical {C : Codecs} {k : List Nat} {d : Nat}
    (rest : List Nat) (hk : goodTok C k) (hd : d = 0x20 ∨ d = 0x0A) :
    kanji_line C (k ++ SEPARATOR ++ d :: rest) = .error .err := by
  have e1 : k ++ SEPARATOR ++ d :: rest
      = k ++ 0x20 :: (0x3A :: 0x20 :: (d :: rest)) := by simp [SEPARATOR]
  rw [e1]
  have hdset : d ∈ ([0x20, 0x0A] : List Nat) := by
    rcases hd with rfl | rfl <;> simp
  have hrad1 : radical C (d :: rest) = .error .err := by
    simp only [radical, map_res, is_not_err rest hdset]
  simp only [kanji_line, map_p, separated_pair_p,
    kanji_at hk.2.1 _ (goodTok_decode hk), tag_sep_ok, radicals,
    separated_list1, hrad1]

/-- The decompositions a list of well-formed blocks resolves to. -/
def recsOf (C : Codecs) (blocks : List Block) : List Decomposition :=
  blocks.map (fun b => decOf C b.2)

theorem renderBlocks_cons (b : Block) (bs : List Block) :
    renderBlocks (b :: bs) = renderBlock b ++ renderBlocks bs := by
  simp [renderBlocks]

theorem renderBlock_length_pos (b : Block) : 0 < (renderBlock b).length := by
  simp [renderBlock, renderRec]

theorem loopGenErr {C : Codecs} : ∀ blocks : List Block,
    (∀ b ∈ blocks, goodBlock C b) → ∀ (s : List Nat),
    next_kanji C s = .error .err → ∀ (out : List Decomposition) (fuel : Nat),
    (renderBlocks blocks ++ s).length < fuel →
    sepListLoop (char_p 0x0A) (next_kanji C) fuel
      (0x0A :: (renderBlocks blocks ++ s)) out
      = .ok (0x0A :: s, out ++ recsOf C blocks) := by
  intro blocks
  induction blocks with
  | nil =>
    intro _ s hs out fuel hfuel
    cases fuel with
    | zero => omega
    | succ f =>
      simp only [renderBlocks, List.map_nil, List.flatten_nil, List.nil_append]
      simp only [sepListLoop, char_p_ok]
      rw [if_neg (by simp only [List.length_cons]; omega)]
      simp [hs, recsOf]
  | cons b bs ih =>
    intro hg s hs out fuel hfuel
    cases fuel with
    | zero => omega
    | succ f =>
      rw [renderBlocks_cons] at hfuel ⊢
      have hb : goodBlock C b := hg b (by simp)
      have hbs : ∀ x ∈ bs, goodBlock C x := fun x hx => hg x (by simp [hx])
      have hnk : next_kanji C (renderBlock b ++ (renderBlocks bs ++ s))
          = .ok (0x0A :: (renderBlocks bs ++ s), decOf C b.2) := by
        have := nk_block hb.1 hb.2 (renderBlocks bs ++ s)
        simpa [renderBlock, List.append_assoc] using this
      have hpos := renderBlock_length_pos b
      simp only [List.append_assoc]
      simp only [sepListLoop, char_p_ok]
      rw [if_neg (by simp only [List.length_cons]; omega)]
      simp only [hnk]
      rw [ih hbs s hs (out ++ [decOf C b.2]) f
        (by simp only [List.length_append] at hfuel ⊢; omega)]
      simp [recsOf]

theorem loopGenInc {C : Codecs} : ∀ blocks : List Block,
    (∀ b ∈ blocks, goodBlock C b) → ∀ (s : List Nat),
    next_kanji C s = .error .incomplete →
    ∀ (out : List Decomposition) (fuel : Nat),
    (renderBlocks blocks ++ s).length < fuel →
    sepListLoop (char_p 0x0A) (next_kanji C) fuel
      (0x0A :: (renderBlocks blocks ++ s)) out
      = .error .incomplete := by
  intro blocks
  induction blocks with
  | nil =>
    intro _ s hs out fuel hfuel
    cases fuel with
    | zero => omega
    | succ f =>
      simp only [renderBlocks, List.map_nil, List.flatten_nil, List.nil_append]
      simp only [sepListLoop, char_p_ok]
      rw [if_neg (by simp only [List.length_cons]; omega)]
      simp [hs]
  | cons b bs ih =>
    intro hg s hs out fuel hfuel
    cases fuel with
    | zero => omega
    | succ f =>
      rw [renderBlocks_cons] at hfuel ⊢
      have hb : goodBlock C b := hg b (by simp)
      have hbs : ∀ x ∈ bs, goodBlock C x := fun x hx => hg x (by simp [hx])
      have hnk : next_kanji C (renderBlock b ++ (renderBlocks bs ++ s))
          = .ok (0x0A :: (renderBlocks bs ++ s), decOf C b.2) := by
        have := nk_block hb.1 hb.2 (renderBlocks bs ++ s)
        simpa [renderBlock, List.append_assoc] using this
      have hpos := renderBlock_length_pos b
      simp only [List.append_assoc]
      simp only [sepListLoop, char_p_ok]
      rw [if_neg (by simp only [List.length_cons]; omega)]
      simp only [hnk]
      rw [ih hbs s hs (out ++ [decOf C b.2]) f
        (by simp only [List.length_append] at hfuel ⊢; omega)]

theorem lines_nil_err {C : Codecs} {s : List Nat}
    (hs : next_kanji C s = .error .err) : lines C s = .error .err := by
  simp only [lines, separated_list1, hs]

theorem lines_blocks_ok {C : Codecs} {blocks : List Block}
    (hg : ∀ b ∈ blocks, goodBlock C b) (hne : blocks ≠ []) {s : List Nat}
    (hs : next_kanji C s = .error .err) :
    lines C (renderBlocks blocks ++ s) = .ok (0x0A :: s, recsOf C blocks) := by
  obtain ⟨b, bs, rfl⟩ := List.exists_cons_of_ne_nil hne
  rw [renderBlocks_cons]
  have hb : goodBlock C b := hg b (by simp)
  have hbs : ∀ x ∈ bs, goodBlock C x := fun x hx => hg x (by simp [hx])
  have hnk : next_kanji C (renderBlock b ++ (renderBlocks bs ++ s))
      = .ok (0x0A :: (renderBlocks bs ++ s), decOf C b.2) := by
    have := nk_block hb.1 hb.2 (renderBlocks bs ++ s)
    simpa [renderBlock, List.append_assoc] using this
  simp only [List.append_assoc, lines, separated_list1, hnk]
  rw [loopGenErr bs hbs s hs [decOf C b.2] _
    (by simp only [List.length_cons]; omega)]
  simp [recsOf]

theorem lines_blocks_inc {C : Codecs} {blocks : List Block}
    (hg : ∀ b ∈ blocks, goodBlock C b) {s : List Nat}
    (hs : next_kanji C s = .error .incomplete) :
    lines C (renderBlocks blocks ++ s) = .error .incomplete := by
  cases blocks with
  | nil =>
    simp only [renderBlocks, List.map_nil, List.flatten_nil, List.nil_append]
    simp only [lines, separated_list1, hs]
  | cons b bs =>
    rw [renderBlocks_cons]
    have hb : goodBlock C b := hg b (by simp)
    have hbs : ∀ x ∈ bs, goodBlock C x := fun x hx => hg x (by simp [hx])
    have hnk : next_kanji C (renderBlock b ++ (renderBlocks bs ++ s))
        = .ok (0x0A :: (renderBlocks bs ++ s), decOf C b.2) := by
      have := nk_block hb.1 hb.2 (renderBlocks bs ++ s)
      simpa [renderBlock, List.append_assoc] using this
    simp only [List.append_assoc, lines, separated_list1, hnk]
    rw [loopGenInc bs hbs s hs [decOf C b.2] _
      (by simp only [List.length_cons]; omega)]

theorem parse_bytes_blocks_err {C : Codecs} (blocks : List Block)
    (hg : ∀ b ∈ blocks, goodBlock C b) {s : List Nat}
    (hs : next_kanji C s = .error .err) :
    parse_bytes C (renderBlocks blocks ++ s)
      = if blocks.isEmpty then .error .parse else .ok (recsOf C blocks) := by
  cases blocks with
  | nil =>
    have h : parse_bytes C s = .error .parse := by
      simp only [parse_bytes, lines_nil_err hs]
    simpa [renderBlocks] using h
  | cons b bs =>
    have hne : b :: bs ≠ ([] : List Block) := by simp
    have h : parse_bytes C (renderBlocks (b :: bs) ++ s)
        = .ok (recsOf C (b :: bs)) := by
      simp only [parse_bytes, lines_blocks_ok hg hne hs]
    simpa using h

theorem parse_bytes_blocks_inc {C : Codecs} (blocks : List Block)
    (hg : ∀ b ∈ blocks, goodBlock C b) {s : List Nat}
    (hs : next_kanji C s = .error .incomplete) :
    parse_bytes C (renderBlocks blocks ++ s) = .error .parse := by
  simp only [parse_bytes, lines_blocks_inc hg hs]

theorem sepListLoop_prefix {α γ : Type} {sep : ByteParse γ} {p : ByteParse α} :
    ∀ (fuel : Nat) (i : List Nat) (acc : List α) {i' : List Nat}
    {out : List α}, sepListLoop sep p fuel i acc = .ok (i', out) →
    ∃ extra, out = acc ++ extra := by
  intro fuel
  induction fuel with
  | zero => intro i acc i' out h; simp [sepListLoop] at h
  | succ f ih =>
    intro i acc i' out h
    simp only [sepListLoop] at h
    cases hsep : sep i with
    | error e =>
      rw [hsep] at h
      cases e with
      | err => simp at h; exact ⟨[], by simp [← h.2]⟩
      | incomplete => simp at h
    | ok pr =>
      obtain ⟨i1, g⟩ := pr
      rw [hsep] at h
      simp only [] at h
      by_cases hlen : i1.length = i.length
      · rw [if_pos hlen] at h; simp at h
      · rw [if_neg hlen] at h
        cases hp1 : p i1 with
        | error e =>
          rw [hp1] at h
          cases e with
          | err => simp at h; exact ⟨[], by simp [← h.2]⟩
          | incomplete => simp at h
        | ok pr2 =>
          obtain ⟨i2, o⟩ := pr2
          rw [hp1] at h
          simp only at h
          obtain ⟨extra, hx⟩ := ih i2 (acc ++ [o]) h
          exact ⟨o :: extra, by simp [hx]⟩

theorem sepListLoop_all {α γ : Type} {sep : ByteParse γ} {p : ByteParse α}
    (P : α → Prop) (hp : ∀ b i o, p b = .ok (i, o) → P o) :
    ∀ (fuel : Nat) (i : List Nat) (acc : List α) {i' : List Nat}
    {out : List α}, sepListLoop sep p fuel i acc = .ok (i', out) →
    (∀ x ∈ acc, P x) → ∀ x ∈ out, P x := by
  intro fuel
  induction fuel with
  | zero => intro i acc i' out h hacc; simp [sepListLoop] at h
  | succ f ih =>
    intro i acc i' out h hacc
    simp only [sepListLoop] at h
    cases hsep : sep i with
    | error e =>
      rw [hsep] at h
      cases e with
      | err => simp at h; rw [← h.2]; exact hacc
      | incomplete => simp at h
    | ok pr =>
      obtain ⟨i1, g⟩ := pr
      rw [hsep] at h
      simp only [] at h
      by_cases hlen : i1.length = i.length
      · rw [if_pos hlen] at h; simp at h
      · rw [if_neg hlen] at h
        cases hp1 : p i1 with
        | error e =>
          rw [hp1] at h
          cases e with
          | err => simp at h; rw [← h.2]; exact hacc
          | incomplete => simp at h
        | ok pr2 =>
          obtain ⟨i2, o⟩ := pr2
          rw [hp1] at h
          simp only at h
          refine ih i2 (acc ++ [o]) h ?_
          intro x hx
          rcases List.mem_append.mp hx with hx | hx
          · exact hacc x hx
          · simp at hx; rw [hx]; exact hp i1 i2 o hp1

theorem separated_list1_ne_nil {α γ : Type} {sep : ByteParse γ}
    {p : ByteParse α} {b i' : List Nat} {out : List α}
    (h : separated_list1 sep p b = .ok (i', out)) : out ≠ [] := by
  simp only [separated_list1] at h
  cases hp : p b with
  | error e => rw [hp] at h; simp at h
  | ok pr =>
    obtain ⟨i1, o⟩ := pr
    rw [hp] at h
    simp only at h
    obtain ⟨extra, hx⟩ := sepListLoop_prefix _ _ _ h
    simp [hx]

theorem separated_list1_all {α γ : Type} {sep : ByteParse γ}
    {p : ByteParse α} (P : α → Prop)
    (hp : ∀ b i o, p b = .ok (i, o) → P o) {b i' : List Nat} {out : List α}
    (h : separated_list1 sep p b = .ok (i', out)) : ∀ x ∈ out, P x := by
  simp only [separated_list1] at h
  cases hp1 : p b with
  | error e => rw [hp1] at h; simp at h
  | ok pr =>
    obtain ⟨i1, o⟩ := pr
    rw [hp1] at h
    simp only at h
    refine sepListLoop_all P hp _ i1 [o] h ?_
    intro x hx
    simp at hx; rw [hx]; exact hp b i1 o hp1

theorem kanji_line_ok_radicals {C : Codecs} {b i' : List Nat}
    {d : Decomposition} (h : kanji_line C b = .ok (i', d)) :
    d.radicals ≠ [] := by
  simp only [kanji_line, map_p, separated_pair_p] at h
  cases h1 : kanji C b with
  | error e => rw [h1] at h; simp at h
  | ok pr1 =>
    obtain ⟨i1, sk⟩ := pr1
    rw [h1] at h
    simp only [] at h
    cases h2 : tag_p SEPARATOR i1 with
    | error e => rw [h2] at h; simp at h
    | ok pr2 =>
      obtain ⟨i2, t⟩ := pr2
      rw [h2] at h
      simp only [] at h
      cases h3 : radicals C i2 with
      | error e => rw [h3] at h; simp at h
      | ok pr3 =>
        obtain ⟨i3, rs⟩ := pr3
        rw [h3] at h
        simp at h
        rw [← h.2]
        exact separated_list1_ne_nil h3

theorem next_kanji_ok_radicals {C : Codecs} {b i' : List Nat}
    {d : Decomposition} (h : next_kanji C b = .ok (i', d)) :
    d.radicals ≠ [] := by
  simp only [next_kanji, map_p, separated_pair_p] at h
  cases h1 : comments b with
  | error e => rw [h1] at h; simp at h
  | ok pr1 =>
    obtain ⟨i1, u⟩ := pr1
    rw [h1] at h
    simp only [] at h
    cases h2 : opt_p (char_p 0x0A) i1 with
    | error e => rw [h2] at h; simp at h
    | ok pr2 =>
      obtain ⟨i2, w⟩ := pr2
      rw [h2] at h
      simp only [] at h
      cases h3 : kanji_line C i2 with
      | error e => rw [h3] at h; simp at h
      | ok pr3 =>
        obtain ⟨i3, d3⟩ := pr3
        rw [h3] at h
        simp at h
        rw [← h.2]
        exact kanji_line_ok_radicals h3

theorem lines_ok_radicals {C : Codecs} {b i' : List Nat}
    {recs : List Decomposition} (h : lines C b = .ok (i', recs)) :
    ∀ d ∈ recs, d.radicals ≠ [] := by
  refine separated_list1_all (fun d => d.radicals ≠ []) ?_ h
  intro b' i o ho
  exact next_kanji_ok_radicals ho

theorem bytes_to_u32_pair (b0 b1 : Nat) :
    bytes_to_u32 [b0, b1] = 256 * b0 + b1 := by
  simp [bytes_to_u32, List.enum, List.enumFrom, Nat.shiftLeft_eq]
  ring

theorem head?_append_left {k X : List Nat} (hk : k ≠ []) :
    (k ++ X).head? = k.head? := by
  cases k with
  | nil => exact absurd rfl hk
  | cons a as => simp

theorem head?_ne_of_not_mem {k : List Nat} {c : Nat} (h : c ∉ k) :
    k.head? ≠ some c := by
  cases k with
  | nil => simp
  | cons a as =>
    simp only [List.head?_cons, ne_eq, Option.some.injEq]
    intro hc
    exact h (by simp [hc])

theorem nk_nil_err (C : Codecs) : next_kanji C [] = .error .err := by
  have h := nk_trail (C := C) [] (by simp)
  simpa [renderComments] using h

example : parse_bytes exampleCodecs
    [0xB0, 0xA1, 0x20, 0x3A, 0x20, 0xA1, 0xC3, 0x20, 0xB0, 0xEC, 0x20,
     0xB8, 0xFD, 0x0A]
    = .ok [⟨"亜", ["｜", "一", "口"]⟩] := by decide

example : parse_bytes exampleCodecs
    [0x8F, 0xB0, 0xA1, 0x20, 0x3A, 0x20, 0xB0, 0xEC, 0x20, 0xD2, 0xB1, 0x0A]
    = .ok [⟨"丂", ["一", "勹"]⟩] := by decide

example : parse_bytes exampleCodecs [] = .error .parse := by decide

example : parse_bytes exampleCodecs
    [0x23, 0x61, 0x0A, 0xB0, 0xA1, 0x20, 0x3A, 0x20, 0xB0, 0xEC, 0x0A]
    = .ok [⟨"亜", ["一"]⟩] := by decide

example : parse_bytes exampleCodecs
    [0xB0, 0xA1, 0x20, 0x3A, 0x20, 0xB0, 0xEC]
    = .error .parse := by decide

example : parse_bytes exampleCodecs
    [0xB0, 0xA1, 0x20, 0x3A, 0x20, 0xB0, 0xEC, 0x0A,
     0xFF, 0xFF, 0x20, 0x3A, 0x20, 0xB0, 0xEC, 0x0A]
    = .ok [⟨"亜", ["一"]⟩] := by decide

/-- C3 (counterexample): the claim asserts a distinct
`UnsupportedTokenLength` error, separate from the unmapped-code error.  In
the code, a 1-byte token and an unmapped 2-byte token produce the very same
error value `KradError.jis`: there is no separate variant. -/
theorem c3_counterexample :
    decode_jis exampleCodecs [0xFF] = .error KradError.jis ∧
    decode_jis exampleCodecs [0xFF] = decode_jis exampleCodecs [0xFF, 0xFF] := by
  exact ⟨by decide, by decide⟩

/-- C3 (amended): for every token whose length is neither 2 nor 3,
`decode_jis` fails immediately — for every choice of the external decoders,
so neither the table lookup nor the multibyte decode is attempted — but
with `KradError.jis`, the same variant used for an unmapped 2-byte code,
not with a distinct `UnsupportedTokenLength` variant. -/
theorem c3_amended (C : Codecs) (b : List Nat) (h2 : b.length ≠ 2)
    (h3 : b.length ≠ 3) : decode_jis C b = .error .jis := by
  match b, h2, h3 with
  | [], _, _ => rfl
  | [x], _, _ => rfl
  | [x, y], h2, _ => exact absurd rfl h2
  | [x, y, z], _, h3 => exact absurd rfl h3
  | x :: y :: z :: w :: t, _, _ => rfl

/-- C3 (witness): `c3_amended` at the 1-byte token `[0xFF]`. -/
theorem c3_witness : decode_jis exampleCodecs [0xFF] = .error .jis :=
  c3_amended exampleCodecs [0xFF] (by decide) (by decide)

/-- C5: the empty buffer (`cls = []`) and every buffer consisting only of
comment lines parse to the `KradError.parse` error; no empty record list is
ever returned for such buffers. -/
theorem c5_comment_only (C : Codecs) (cls : List (List Nat))
    (hcls : ∀ body ∈ cls, goodBody body) :
    parse_bytes C (renderComments cls) = .error .parse := by
  have h := parse_bytes_blocks_err (C := C) [] (by simp)
    (nk_trail cls hcls)
  simpa [renderBlocks] using h

/-- C5 (witness): `c5_comment_only` on the empty buffer and on the one
comment line `"#a\n"`. -/
theorem c5_witness :
    parse_bytes exampleCodecs [] = .error .parse ∧
    parse_bytes exampleCodecs [0x23, 0x61, 0x0A] = .error .parse := by
  constructor
  · have h := c5_comment_only exampleCodecs [] (by simp)
    simpa [renderComments] using h
  · have h := c5_comment_only exampleCodecs [[0x61]]
      (by intro b hb; rw [List.mem_singleton] at hb; subst hb
          simp [goodBody])
    rw [show ([0x23, 0x61, 0x0A] : List Nat) = renderComments [[0x61]] from
      by decide]
    exact h

/-- C6: a 2-byte token is combined big-endian into the numeric code
`256 * byte0 + byte1` (the value of `byte0 << 8 | byte1`), looked up in the
codepoint table, giving the table's character on a hit and the
`KradError.jis` error (the unmapped-legacy-code failure) on a miss. -/
theorem c6_two_byte_decode (C : Codecs) (b0 b1 : Nat) :
    bytes_to_u32 [b0, b1] = 256 * b0 + b1 ∧
    decode_jis C [b0, b1]
      = (C.jis_to_utf8 (256 * b0 + b1)).elim (.error .jis)
          (fun c => .ok (String.mk [c])) := by
  refine ⟨bytes_to_u32_pair b0 b1, ?_⟩
  have hred : decode_jis C [b0, b1]
      = match C.jis_to_utf8 (bytes_to_u32 [b0, b1]) with
        | some c => .ok (String.mk [c])
        | none => .error .jis := rfl
  rw [hred, bytes_to_u32_pair]
  cases C.jis_to_utf8 (256 * b0 + b1) <;> simp

/-- C10: `parse_bytes` only ever fails with `KradError.parse`, and
`parse_file` only with `KradError.parse` or the read error: the decoder
variants `jis` and `eucJp` never escape through the public entry points. -/
theorem c10_error_collapse :
    (∀ (C : Codecs) (b : List Nat) (e : KradError),
        parse_bytes C b = .error e → e = .parse) ∧
    (∀ (C : Codecs) (r : Option (List Nat)) (e : KradError),
        parse_file C r = .error e → e = .parse ∨ e = .ioErr) := by
  have h1 : ∀ (C : Codecs) (b : List Nat) (e : KradError),
      parse_bytes C b = .error e → e = .parse := by
    intro C b e h
    simp only [parse_bytes] at h
    cases hl : lines C b with
    | ok pr => rw [hl] at h; simp at h
    | error e2 =>
      rw [hl] at h
      simp only [] at h
      injection h with h
      exact h.symm
  refine ⟨h1, ?_⟩
  intro C r e h
  cases r with
  | none =>
    right
    simp only [parse_file, parse_file_implementation] at h
    injection h with h
    exact h.symm
  | some b =>
    left
    exact h1 C b e (by simpa [parse_file, parse_file_implementation] using h)

/-- C10 (witness): `c10_error_collapse` at the failing empty buffer and at
a failed read. -/
theorem c10_witness :
    (KradError.parse = KradError.parse) ∧
    (KradError.ioErr = KradError.parse ∨ KradError.ioErr = KradError.ioErr) :=
  ⟨c10_error_collapse.1 exampleCodecs [] .parse (by decide),
   c10_error_collapse.2 exampleCodecs none .ioErr (by decide)⟩

theorem radical_badTok {C : Codecs} {t0 t1 d : Nat} (rest : List Nat)
    {e : KradError}
    (h00 : t0 ≠ 0x20) (h01 : t0 ≠ 0x0A) (h10 : t1 ≠ 0x20) (h11 : t1 ≠ 0x0A)
    (hd : d = 0x20 ∨ d = 0x0A)
    (hdec : decode_jis C [t0, t1] = .error e) :
    radical C ([t0, t1] ++ d :: rest) = .error .err := by
  have hk : ∀ x ∈ ([t0, t1] : List Nat), x ∉ ([0x20, 0x0A] : List Nat) := by
    intro x hx hmem
    simp only [List.mem_cons, List.mem_singleton] at hx hmem
    rcases hx with rfl | rfl | hx
    · rcases hmem with h | h
      · exact h00 (by simpa using h)
      · exact h01 (by simpa using h)
    · rcases hmem with h | h
      · exact h10 (by simpa using h)
      · exact h11 (by simpa using h)
    · simp at hx
  have hdmem : d ∈ ([0x20, 0x0A] : List Nat) := by
    rcases hd with rfl | rfl <;> simp
  simp only [radical, map_res, is_not_at rest (by simp) hk hdmem, hdec]

theorem radTail_head20 (rs : List (List Nat)) (rest : List Nat) :
    (radTailN rs ++ 0x20 :: rest).head? = some 0x20 ∨
      (radTailN rs ++ 0x20 :: rest).head? = some 0x0A := by
  cases rs with
  | nil => simp [radTailN]
  | cons x xs => simp [radTailN_cons]

theorem radLoopBad {C : Codecs} : ∀ rs : List (List Nat),
    (∀ t ∈ rs, goodTok C t) → ∀ (t0 t1 d : Nat) (rest : List Nat)
    (out : List String) (fuel : Nat) {e : KradError},
    t0 ≠ 0x20 → t0 ≠ 0x0A → t1 ≠ 0x20 → t1 ≠ 0x0A →
    (d = 0x20 ∨ d = 0x0A) → decode_jis C [t0, t1] = .error e →
    (radTailN rs ++ 0x20 :: ([t0, t1] ++ d :: rest)).length < fuel →
    sepListLoop (char_p 0x20) (radical C) fuel
      (radTailN rs ++ 0x20 :: ([t0, t1] ++ d :: rest)) out
      = .ok (0x20 :: ([t0, t1] ++ d :: rest), out ++ rs.map (decodeOk C)) := by
  intro rs
  induction rs with
  | nil =>
    intro _ t0 t1 d rest out fuel e h00 h01 h10 h11 hd hdec hfuel
    cases fuel with
    | zero => omega
    | succ f =>
      simp only [radTailN, List.map_nil, List.flatten_nil, List.nil_append]
      simp only [sepListLoop, char_p_ok]
      rw [if_neg (by simp only [List.length_cons]; omega)]
      have hbad := radical_badTok (C := C) rest h00 h01 h10 h11 hd hdec
      simp only [List.cons_append, List.nil_append] at hbad
      simp [hbad]
  | cons x xs ih =>
    intro hg t0 t1 d rest out fuel e h00 h01 h10 h11 hd hdec hfuel
    cases fuel with
    | zero => omega
    | succ f =>
      rw [radTailN_cons] at hfuel ⊢
      have hx : goodTok C x := hg x (by simp)
      have hxs : ∀ t ∈ xs, goodTok C t := fun t ht => hg t (by simp [ht])
      have hrad : radical C
          (x ++ (radTailN xs ++ 0x20 :: ([t0, t1] ++ d :: rest)))
          = .ok (radTailN xs ++ 0x20 :: ([t0, t1] ++ d :: rest),
              decodeOk C x) :=
        radical_at hx _ (radTail_head20 xs ([t0, t1] ++ d :: rest))
      simp only [List.cons_append, List.nil_append] at hrad
      have hih := ih hxs t0 t1 d rest (out ++ [decodeOk C x]) f h00 h01 h10
        h11 hd hdec (by simp at hfuel ⊢; omega)
      simp only [List.cons_append, List.nil_append] at hih
      simp only [List.cons_append, List.nil_append, List.append_assoc]
      simp only [sepListLoop, char_p_ok]
      rw [if_neg (by simp only [List.length_cons]; omega)]
      simp only [hrad]
      rw [hih]
      simp

theorem radicals_badLater {C : Codecs} {rs : List (List Nat)}
    (hg : ∀ t ∈ rs, goodTok C t) (hne : rs ≠ []) (t0 t1 d : Nat)
    (rest : List Nat) {e : KradError}
    (h00 : t0 ≠ 0x20) (h01 : t0 ≠ 0x0A) (h10 : t1 ≠ 0x20) (h11 : t1 ≠ 0x0A)
    (hd : d = 0x20 ∨ d = 0x0A)
    (hdec : decode_jis C [t0, t1] = .error e) :
    radicals C (joinSep rs ++ 0x20 :: ([t0, t1] ++ d :: rest))
      = .ok (0x20 :: ([t0, t1] ++ d :: rest), rs.map (decodeOk C)) := by
  obtain ⟨r, rs', rfl⟩ := List.exists_cons_of_ne_nil hne
  rw [joinSep_eq_radTailN]
  have hr : goodTok C r := hg r (by simp)
  have hrad : radical C
      (r ++ (radTailN rs' ++ 0x20 :: ([t0, t1] ++ d :: rest)))
      = .ok (radTailN rs' ++ 0x20 :: ([t0, t1] ++ d :: rest), decodeOk C r) :=
    radical_at hr _ (radTail_head20 rs' ([t0, t1] ++ d :: rest))
  simp only [List.cons_append, List.nil_append] at hrad
  have hloop := radLoopBad rs' (fun t ht => hg t (by simp [ht])) t0 t1 d rest
    [decodeOk C r] ((radTailN rs' ++ 0x20 :: ([t0, t1] ++ d :: rest)).length + 1)
    h00 h01 h10 h11 hd hdec (by omega)
  simp only [List.cons_append, List.nil_append] at hloop
  simp only [radicals, separated_list1, List.cons_append, List.nil_append,
    List.append_assoc]
  simp only [hrad]
  rw [hloop]
  simp

theorem kanji_line_badRadicalLater {C : Codecs} {k : List Nat}
    {rs : List (List Nat)} (hk : goodTok C k)
    (hg : ∀ t ∈ rs, goodTok C t) (hne : rs ≠ []) (t0 t1 d : Nat)
    (rest : List Nat) {e : KradError}
    (h00 : t0 ≠ 0x20) (h01 : t0 ≠ 0x0A) (h10 : t1 ≠ 0x20) (h11 : t1 ≠ 0x0A)
    (hd : d = 0x20 ∨ d = 0x0A)
    (hdec : decode_jis C [t0, t1] = .error e) :
    kanji_line C (k ++ SEPARATOR ++ joinSep rs ++ 0x20 :: ([t0, t1] ++ d :: rest))
      = .ok (0x20 :: ([t0, t1] ++ d :: rest),
          ⟨decodeOk C k, rs.map (decodeOk C)⟩) := by
  have e1 : k ++ SEPARATOR ++ joinSep rs ++ 0x20 :: ([t0, t1] ++ d :: rest)
      = k ++ 0x20 :: (0x3A :: 0x20 ::
          (joinSep rs ++ 0x20 :: ([t0, t1] ++ d :: rest))) := by
    simp [SEPARATOR]
  rw [e1]
  simp only [kanji_line, map_p, separated_pair_p,
    kanji_at hk.2.1 _ (goodTok_decode hk), tag_sep_ok,
    radicals_badLater hg hne t0 t1 d rest h00 h01 h10 h11 hd hdec]

theorem kanji_line_badRadical1 {C : Codecs} {k : List Nat}
    (hk : goodTok C k) (t0 t1 d : Nat) (rest : List Nat) {e : KradError}
    (h00 : t0 ≠ 0x20) (h01 : t0 ≠ 0x0A) (h10 : t1 ≠ 0x20) (h11 : t1 ≠ 0x0A)
    (hd : d = 0x20 ∨ d = 0x0A)
    (hdec : decode_jis C [t0, t1] = .error e) :
    kanji_line C (k ++ SEPARATOR ++ ([t0, t1] ++ d :: rest))
      = .error .err := by
  have e1 : k ++ SEPARATOR ++ ([t0, t1] ++ d :: rest)
      = k ++ 0x20 :: (0x3A :: 0x20 :: ([t0, t1] ++ d :: rest)) := by
    simp [SEPARATOR]
  rw [e1]
  simp only [kanji_line, map_p, separated_pair_p,
    kanji_at hk.2.1 _ (goodTok_decode hk), tag_sep_ok, radicals,
    separated_list1, radical_badTok rest h00 h01 h10 h11 hd hdec]

theorem nk_of_line_ok {C : Codecs} {cls : List (List Nat)}
    {line res : List Nat} {d : Decomposition}
    (hcls : ∀ body ∈ cls, goodBody body)
    (h23 : line.head? ≠ some 0x23) (h0A : line.head? ≠ some 0x0A)
    (hline : kanji_line C line = .ok (res, d)) :
    next_kanji C (renderComments cls ++ line) = .ok (res, d) := by
  cases cls with
  | nil =>
    simp only [renderComments, List.map_nil, List.flatten_nil, List.nil_append]
    simp only [next_kanji, map_p, separated_pair_p,
      comments_at_nil h23, opt_nl_none h0A, hline]
  | cons c cs' =>
    simp only [next_kanji, map_p, separated_pair_p,
      comments_at_cons hcls h23, opt_nl_some, hline]

theorem char_nl_fail {b : List Nat} (h : b.head? ≠ some 0x0A) :
    char_p 0x0A b = .error .err := by
  cases b with
  | nil => rfl
  | cons x xs =>
    have hx : x ≠ 0x0A := by simpa using h
    exact char_p_ne xs hx

theorem loopGenOk {C : Codecs} : ∀ blocks : List Block,
    (∀ b ∈ blocks, goodBlock C b) → ∀ (s res : List Nat)
    (d : Decomposition), next_kanji C s = .ok (res, d) →
    res.head? ≠ some 0x0A → res.length < s.length →
    ∀ (out : List Decomposition) (fuel : Nat),
    (renderBlocks blocks ++ s).length < fuel →
    sepListLoop (char_p 0x0A) (next_kanji C) fuel
      (0x0A :: (renderBlocks blocks ++ s)) out
      = .ok (res, out ++ recsOf C blocks ++ [d]) := by
  intro blocks
  induction blocks with
  | nil =>
    intro _ s res d hs hres hlen out fuel hfuel
    cases fuel with
    | zero => omega
    | succ f =>
      cases f with
      | zero =>
        have hs0 : s.length = 0 := by
          simp only [renderBlocks, List.map_nil, List.flatten_nil,
            List.nil_append] at hfuel
          omega
        omega
      | succ f2 =>
        simp only [renderBlocks, List.map_nil, List.flatten_nil,
          List.nil_append]
        simp only [sepListLoop, char_p_ok]
        rw [if_neg (by simp only [List.length_cons]; omega)]
        simp only [hs]
        simp only [sepListLoop, char_nl_fail hres]
        simp [recsOf]
  | cons b bs ih =>
    intro hg s res d hs hres hlen out fuel hfuel
    cases fuel with
    | zero => omega
    | succ f =>
      rw [renderBlocks_cons] at hfuel ⊢
      have hb : goodBlock C b := hg b (by simp)
      have hbs : ∀ x ∈ bs, goodBlock C x := fun x hx => hg x (by simp [hx])
      have hnk : next_kanji C (renderBlock b ++ (renderBlocks bs ++ s))
          = .ok (0x0A :: (renderBlocks bs ++ s), decOf C b.2) := by
        have h := nk_block hb.1 hb.2 (renderBlocks bs ++ s)
        simpa [renderBlock, List.append_assoc] using h
      have hpos := renderBlock_length_pos b
      simp only [List.append_assoc]
      simp only [sepListLoop, char_p_ok]
      rw [if_neg (by simp only [List.length_cons]; omega)]
      simp only [hnk]
      rw [ih hbs s res d hs hres hlen (out ++ [decOf C b.2]) f
        (by simp only [List.length_append] at hfuel ⊢; omega)]
      simp [recsOf]

theorem lines_blocks_okEnd {C : Codecs} {blocks : List Block}
    (hg : ∀ b ∈ blocks, goodBlock C b) {s res : List Nat}
    {d : Decomposition} (hs : next_kanji C s = .ok (res, d))
    (hres : res.head? ≠ some 0x0A) (hlen : res.length < s.length) :
    lines C (renderBlocks blocks ++ s)
      = .ok (res, recsOf C blocks ++ [d]) := by
  cases blocks with
  | nil =>
    simp only [renderBlocks, List.map_nil, List.flatten_nil, List.nil_append]
    simp only [lines, separated_list1, hs]
    simp only [sepListLoop, char_nl_fail hres]
    simp [recsOf]
  | cons b bs =>
    rw [renderBlocks_cons]
    have hb : goodBlock C b := hg b (by simp)
    have hbs : ∀ x ∈ bs, goodBlock C x := fun x hx => hg x (by simp [hx])
    have hnk : next_kanji C (renderBlock b ++ (renderBlocks bs ++ s))
        = .ok (0x0A :: (renderBlocks bs ++ s), decOf C b.2) := by
      have h := nk_block hb.1 hb.2 (renderBlocks bs ++ s)
      simpa [renderBlock, List.append_assoc] using h
    simp only [List.append_assoc, lines, separated_list1, hnk]
    rw [loopGenOk bs hbs s res d hs hres hlen [decOf C b.2] _
      (by simp only [List.length_cons]; omega)]
    simp [recsOf]

theorem parse_bytes_blocks_okEnd {C : Codecs} {blocks : List Block}
    (hg : ∀ b ∈ blocks, goodBlock C b) {s res : List Nat}
    {d : Decomposition} (hs : next_kanji C s = .ok (res, d))
    (hres : res.head? ≠ some 0x0A) (hlen : res.length < s.length) :
    parse_bytes C (renderBlocks blocks ++ s)
      = .ok (recsOf C blocks ++ [d]) := by
  simp only [parse_bytes, lines_blocks_okEnd hg hs hres hlen]

/-- C1 (counterexample): a buffer holding one valid record (`"亜 : 一\n"`)
followed by a data line whose 2-byte kanji token `FF FF` has no entry in
the codepoint table.  The claim says the whole parse fails with the
unmapped-code error and returns no partial list; in fact `parse_bytes`
succeeds and returns the partial list of the records preceding the bad
line, because nom's `separated_list1` treats the recoverable decode error
as the end of the list. -/
theorem c1_counterexample :
    parse_bytes exampleCodecs
      [0xB0, 0xA1, 0x20, 0x3A, 0x20, 0xB0, 0xEC, 0x0A,
       0xFF, 0xFF, 0x20, 0x3A, 0x20, 0xB0, 0xEC, 0x0A]
      = .ok [⟨"亜", ["一"]⟩] := by decide

/-- C1 (amended): for a data line holding a 2-byte token whose big-endian
code is absent from the codepoint table, the behavior depends on which
field holds the bad token, and the surfaced error is always the generic
`KradError.parse`, never a distinct unmapped-code value.  When the bad
token is the kanji field (part one) or the first radical field (part two),
the line fails recoverably: `parse_bytes` fails with `KradError.parse`
exactly when no well-formed data line precedes, and otherwise succeeds
with exactly the records preceding the bad line.  When the bad token is a
later radical field (part three), `parse_bytes` succeeds even with no
preceding record, returning the preceding records plus a truncated record
holding only that line's radicals before the bad token; everything from
the bad token onward is dropped. -/
theorem c1_amended (C : Codecs) :
    (∀ (blocks : List Block) (cls : List (List Nat)) (t0 t1 : Nat)
        (rest : List Nat), (∀ b ∈ blocks, goodBlock C b) →
        (∀ body ∈ cls, goodBody body) →
        t0 ≠ 0x20 → t0 ≠ 0x0A → t0 ≠ 0x23 → t1 ≠ 0x20 →
        C.jis_to_utf8 (bytes_to_u32 [t0, t1]) = none →
        parse_bytes C
          (renderBlocks blocks
            ++ (renderComments cls ++ ([t0, t1] ++ 0x20 :: rest)))
          = if blocks.isEmpty then .error .parse
            else .ok (recsOf C blocks)) ∧
    (∀ (blocks : List Block) (cls : List (List Nat)) (k : List Nat)
        (t0 t1 d : Nat) (rest : List Nat),
        (∀ b ∈ blocks, goodBlock C b) → (∀ body ∈ cls, goodBody body) →
        goodTok C k → k.head? ≠ some 0x23 →
        t0 ≠ 0x20 → t0 ≠ 0x0A → t1 ≠ 0x20 → t1 ≠ 0x0A →
        (d = 0x20 ∨ d = 0x0A) →
        C.jis_to_utf8 (bytes_to_u32 [t0, t1]) = none →
        parse_bytes C
          (renderBlocks blocks
            ++ (renderComments cls
              ++ (k ++ SEPARATOR ++ ([t0, t1] ++ d :: rest))))
          = if blocks.isEmpty then .error .parse
            else .ok (recsOf C blocks)) ∧
    (∀ (blocks : List Block) (cls : List (List Nat)) (k : List Nat)
        (rs : List (List Nat)) (t0 t1 d : Nat) (rest : List Nat),
        (∀ b ∈ blocks, goodBlock C b) → (∀ body ∈ cls, goodBody body) →
        goodTok C k → k.head? ≠ some 0x23 →
        (∀ t ∈ rs, goodTok C t) → rs ≠ [] →
        t0 ≠ 0x20 → t0 ≠ 0x0A → t1 ≠ 0x20 → t1 ≠ 0x0A →
        (d = 0x20 ∨ d = 0x0A) →
        C.jis_to_utf8 (bytes_to_u32 [t0, t1]) = none →
        parse_bytes C
          (renderBlocks blocks
            ++ (renderComments cls
              ++ (k ++ SEPARATOR ++ joinSep rs
                ++ 0x20 :: ([t0, t1] ++ d :: rest))))
          = .ok (recsOf C blocks
              ++ [⟨decodeOk C k, rs.map (decodeOk C)⟩])) := by
  have hdecgen : ∀ t0 t1 : Nat,
      C.jis_to_utf8 (bytes_to_u32 [t0, t1]) = none →
      decode_jis C [t0, t1] = .error .jis := by
    intro t0 t1 hun
    have hred : decode_jis C [t0, t1]
        = match C.jis_to_utf8 (bytes_to_u32 [t0, t1]) with
          | some c => .ok (String.mk [c])
          | none => .error .jis := rfl
    rw [hred, hun]
  refine ⟨?_, ?_, ?_⟩
  · intro blocks cls t0 t1 rest hblocks hcls h00 h01 h02 h10 hun
    have hkl : kanji_line C ([t0, t1] ++ 0x20 :: rest) = .error .err :=
      kanji_line_badKanji rest
        (by simp; exact ⟨Ne.symm h00, Ne.symm h10⟩) (hdecgen t0 t1 hun)
    have hnk : next_kanji C
        (renderComments cls ++ ([t0, t1] ++ 0x20 :: rest)) = .error .err :=
      nk_of_line_err hcls (by simp [h02]) (by simp [h01]) hkl
    exact parse_bytes_blocks_err blocks hblocks hnk
  · intro blocks cls k t0 t1 d rest hblocks hcls hk hk23 h00 h01 h10 h11
      hd hun
    have hkl : kanji_line C (k ++ SEPARATOR ++ ([t0, t1] ++ d :: rest))
        = .error .err :=
      kanji_line_badRadical1 hk t0 t1 d rest h00 h01 h10 h11 hd
        (hdecgen t0 t1 hun)
    have hnk : next_kanji C
        (renderComments cls ++ (k ++ SEPARATOR ++ ([t0, t1] ++ d :: rest)))
        = .error .err := by
      refine nk_of_line_err hcls ?_ ?_ hkl
      · rw [List.append_assoc, head?_append_left hk.1]; exact hk23
      · rw [List.append_assoc, head?_append_left hk.1]
        exact head?_ne_of_not_mem hk.2.2.1
    exact parse_bytes_blocks_err blocks hblocks hnk
  · intro blocks cls k rs t0 t1 d rest hblocks hcls hk hk23 hrs hrsne h00
      h01 h10 h11 hd hun
    have hkl := kanji_line_badRadicalLater hk hrs hrsne t0 t1 d rest
      h00 h01 h10 h11 hd (hdecgen t0 t1 hun)
    have hnk : next_kanji C
        (renderComments cls
          ++ (k ++ SEPARATOR ++ joinSep rs
            ++ 0x20 :: ([t0, t1] ++ d :: rest)))
        = .ok (0x20 :: ([t0, t1] ++ d :: rest),
            ⟨decodeOk C k, rs.map (decodeOk C)⟩) := by
      refine nk_of_line_ok hcls ?_ ?_ hkl
      · rw [List.append_assoc, List.append_assoc,
          head?_append_left hk.1]
        exact hk23
      · rw [List.append_assoc, List.append_assoc,
          head?_append_left hk.1]
        exact head?_ne_of_not_mem hk.2.2.1
    refine parse_bytes_blocks_okEnd hblocks hnk (by simp) ?_
    simp only [List.length_append, List.length_cons]
    have hkpos : 0 < k.length := List.length_pos.mpr hk.1
    omega

/-- C1 (witness): `c1_amended` at concrete inputs for all three positions
of the unmapped 2-byte token: a lone data line with the unmapped kanji
token `FF FE` fails with `KradError.parse`; `"亜 : \xFF\xFF\n"` (unmapped
first radical) fails with `KradError.parse`; and `"亜 : 一 \xFF\xFF\n"`
(unmapped second radical) succeeds with the truncated record. -/
theorem c1_witness :
    parse_bytes exampleCodecs [0xFF, 0xFE, 0x20] = .error .parse ∧
    parse_bytes exampleCodecs
      [0xB0, 0xA1, 0x20, 0x3A, 0x20, 0xFF, 0xFF, 0x0A] = .error .parse ∧
    parse_bytes exampleCodecs
      [0xB0, 0xA1, 0x20, 0x3A, 0x20, 0xB0, 0xEC, 0x20, 0xFF, 0xFF, 0x0A]
      = .ok [⟨"亜", ["一"]⟩] := by
  refine ⟨?_, ?_, ?_⟩
  · have h := (c1_amended exampleCodecs).1 [] [] 0xFF 0xFE []
      (by simp) (by simp) (by decide) (by decide) (by decide) (by decide)
      (by decide)
    rw [show ([0xFF, 0xFE, 0x20] : List Nat)
        = renderBlocks []
          ++ (renderComments [] ++ ([0xFF, 0xFE] ++ 0x20 :: []))
      from by decide]
    rw [h]
    decide
  · have h := (c1_amended exampleCodecs).2.1 [] [] [0xB0, 0xA1]
      0xFF 0xFF 0x0A []
      (by simp) (by simp)
      ⟨by decide, by decide, by decide, "亜", by decide⟩ (by decide)
      (by decide) (by decide) (by decide) (by decide) (Or.inr rfl)
      (by decide)
    rw [show ([0xB0, 0xA1, 0x20, 0x3A, 0x20, 0xFF, 0xFF, 0x0A] : List Nat)
        = renderBlocks []
          ++ (renderComments []
            ++ ([0xB0, 0xA1] ++ SEPARATOR ++ ([0xFF, 0xFF] ++ 0x0A :: [])))
      from by decide]
    rw [h]
    decide
  · have h := (c1_amended exampleCodecs).2.2 [] [] [0xB0, 0xA1]
      [[0xB0, 0xEC]] 0xFF 0xFF 0x0A []
      (by simp) (by simp)
      ⟨by decide, by decide, by decide, "亜", by decide⟩ (by decide)
      (by intro t ht; rw [List.mem_singleton] at ht; subst ht
          exact ⟨by decide, by decide, by decide, "一", by decide⟩)
      (by simp)
      (by decide) (by decide) (by decide) (by decide) (Or.inr rfl)
      (by decide)
    rw [show ([0xB0, 0xA1, 0x20, 0x3A, 0x20, 0xB0, 0xEC, 0x20, 0xFF, 0xFF,
        0x0A] : List Nat)
        = renderBlocks []
          ++ (renderComments []
            ++ ([0xB0, 0xA1] ++ SEPARATOR ++ joinSep [[0xB0, 0xEC]]
              ++ 0x20 :: ([0xFF, 0xFF] ++ 0x0A :: [])))
      from by decide]
    rw [h]
    decide

/-- C2 (counterexample): a buffer holding one valid record followed by a
data line missing the `" : "` separator (`"亜 B\n"`).  The claim says the
whole parse fails with a grammar error even when well-formed lines precede;
in fact `parse_bytes` succeeds and returns the preceding record, because
the outer `separated_list1` backtracks on the malformed line. -/
theorem c2_counterexample :
    parse_bytes exampleCodecs
      [0xB0, 0xA1, 0x20, 0x3A, 0x20, 0xB0, 0xEC, 0x0A,
       0xB0, 0xA1, 0x20, 0x42, 0x0A]
      = .ok [⟨"亜", ["一"]⟩] := by decide

/-- C2 (amended): a data line that is malformed at its head — the byte
after the first space is not `':'` (missing separator), the line starts
with a space (empty kanji field), or a space or newline directly follows
the separator (empty first radical field) — makes `parse_bytes` fail with
`KradError.parse` exactly when no well-formed data line precedes it; when
well-formed records precede the malformed line, `parse_bytes` instead
succeeds with exactly the preceding records. -/
theorem c2_amended (C : Codecs) (blocks : List Block)
    (cls : List (List Nat)) (line : List Nat)
    (hblocks : ∀ b ∈ blocks, goodBlock C b)
    (hcls : ∀ body ∈ cls, goodBody body)
    (hdef :
      (∃ k u rest, line = k ++ 0x20 :: u :: rest ∧ k ≠ [] ∧ 0x20 ∉ k ∧
        0x0A ∉ k ∧ k.head? ≠ some 0x23 ∧ u ≠ 0x3A) ∨
      (∃ rest, line = 0x20 :: rest) ∨
      (∃ k d rest, line = k ++ SEPARATOR ++ d :: rest ∧ goodTok C k ∧
        k.head? ≠ some 0x23 ∧ (d = 0x20 ∨ d = 0x0A))) :
    parse_bytes C (renderBlocks blocks ++ (renderComments cls ++ line))
      = if blocks.isEmpty then .error .parse else .ok (recsOf C blocks) := by
  have hnk : next_kanji C (renderComments cls ++ line) = .error .err := by
    rcases hdef with ⟨k, u, rest, rfl, hkne, h20, h0A, h23, hu⟩
      | ⟨rest, rfl⟩ | ⟨k, d, rest, rfl, hk, h23, hd⟩
    · refine nk_of_line_err hcls ?_ ?_ (kanji_line_noSep rest h20 hu)
      · rw [head?_append_left hkne]; exact h23
      · rw [head?_append_left hkne]; exact head?_ne_of_not_mem h0A
    · exact nk_of_line_err hcls (by simp) (by simp)
        (kanji_line_emptyKanji rest)
    · refine nk_of_line_err hcls ?_ ?_ (kanji_line_emptyRadical rest hk hd)
      · rw [List.append_assoc, head?_append_left hk.1]
        exact h23
      · rw [List.append_assoc, head?_append_left hk.1]
        exact head?_ne_of_not_mem hk.2.2.1
  exact parse_bytes_blocks_err blocks hblocks hnk

/-- C2 (witness): `c2_amended` with no preceding record: the lone
separator-less data line `"亜 B"` fails with `KradError.parse`. -/
theorem c2_witness :
    parse_bytes exampleCodecs [0xB0, 0xA1, 0x20, 0x42] = .error .parse := by
  have h := c2_amended exampleCodecs [] [] [0xB0, 0xA1, 0x20, 0x42]
    (by simp) (by simp)
    (Or.inl ⟨[0xB0, 0xA1], 0x42, [], by decide, by decide, by decide,
      by decide, by decide, by decide⟩)
  rw [show ([0xB0, 0xA1, 0x20, 0x42] : List Nat)
      = renderBlocks [] ++ (renderComments [] ++ [0xB0, 0xA1, 0x20, 0x42])
    from by decide]
  rw [h]
  decide

/-- C4: a buffer of well-formed records and comment lines whose final data
line (kanji field, separator, one or more radical fields) is not followed
by a newline byte makes the whole parse fail with `KradError.parse`: the
streaming `is_not` hits the end of input inside the last radical token,
and the resulting `Incomplete` outcome is not backtracked, regardless of
how many records precede. -/
theorem c4_no_trailing_newline (C : Codecs) (blocks : List Block)
    (cls : List (List Nat)) (k : List Nat) (rs : List (List Nat))
    (hblocks : ∀ b ∈ blocks, goodBlock C b)
    (hcls : ∀ body ∈ cls, goodBody body)
    (hk : goodTok C k) (hk23 : k.head? ≠ some 0x23)
    (hrs : ∀ t ∈ rs, goodTok C t) (hrsne : rs ≠ []) :
    parse_bytes C
      (renderBlocks blocks ++ (renderComments cls ++ (k ++ SEPARATOR ++ joinSep rs)))
      = .error .parse := by
  have hkl := kanji_line_noNewline hk hrs hrsne
  have hnk : next_kanji C (renderComments cls ++ (k ++ SEPARATOR ++ joinSep rs))
      = .error .incomplete := by
    refine nk_of_line_err hcls ?_ ?_ hkl
    · rw [List.append_assoc, head?_append_left hk.1]; exact hk23
    · rw [List.append_assoc, head?_append_left hk.1]
      exact head?_ne_of_not_mem hk.2.2.1
  exact parse_bytes_blocks_inc blocks hblocks hnk

/-- C4 (witness): `c4_no_trailing_newline` at the buffer
`"亜 : 一\n亜 : 一"` — one complete record, then a well-formed data line
with no trailing newline. -/
theorem c4_witness :
    parse_bytes exampleCodecs
      [0xB0, 0xA1, 0x20, 0x3A, 0x20, 0xB0, 0xEC, 0x0A,
       0xB0, 0xA1, 0x20, 0x3A, 0x20, 0xB0, 0xEC]
      = .error .parse := by
  have h := c4_no_trailing_newline exampleCodecs
    [([], ⟨[0xB0, 0xA1], [[0xB0, 0xEC]]⟩)] [] [0xB0, 0xA1] [[0xB0, 0xEC]]
    (by
      intro b hb
      rw [List.mem_singleton] at hb
      subst hb
      refine ⟨by simp, ⟨⟨by decide, by decide, by decide, "亜", by decide⟩,
        by decide, by simp, ?_⟩⟩
      intro t ht
      rw [List.mem_singleton] at ht
      subst ht
      exact ⟨by decide, by decide, by decide, "一", by decide⟩)
    (by simp)
    ⟨by decide, by decide, by decide, "亜", by decide⟩
    (by decide)
    (by
      intro t ht
      rw [List.mem_singleton] at ht
      subst ht
      exact ⟨by decide, by decide, by decide, "一", by decide⟩)
    (by simp)
  rw [show ([0xB0, 0xA1, 0x20, 0x3A, 0x20, 0xB0, 0xEC, 0x0A,
       0xB0, 0xA1, 0x20, 0x3A, 0x20, 0xB0, 0xEC] : List Nat)
      = renderBlocks [([], ⟨[0xB0, 0xA1], [[0xB0, 0xEC]]⟩)]
        ++ (renderComments []
          ++ ([0xB0, 0xA1] ++ SEPARATOR ++ joinSep [[0xB0, 0xEC]]))
    from by decide]
  exact h

/-- C7: the concrete buffer `"\x8F\xB0\xA1 : \xB0\xEC \xD2\xB1\n"` parses
to exactly one record whenever the multibyte decoder accepts the 3-byte
kanji token and the table maps the two 2-byte radical codes: the kanji is
the multibyte decoding and the radicals are the two table characters, in
order. -/
theorem c7_scenario_b (C : Codecs) (s : String) (c1 c2 : Char)
    (he : C.eucjp_decode [0x8F, 0xB0, 0xA1] = some s)
    (h1 : C.jis_to_utf8 0xB0EC = some c1)
    (h2 : C.jis_to_utf8 0xD2B1 = some c2) :
    parse_bytes C
      [0x8F, 0xB0, 0xA1, 0x20, 0x3A, 0x20, 0xB0, 0xEC, 0x20, 0xD2, 0xB1, 0x0A]
      = .ok [⟨s, [String.mk [c1], String.mk [c2]]⟩] := by
  have hdk : decode_jis C [0x8F, 0xB0, 0xA1] = .ok s := by
    have hred : decode_jis C [0x8F, 0xB0, 0xA1]
        = match C.eucjp_decode [0x8F, 0xB0, 0xA1] with
          | some v => .ok v
          | none => .error .eucJp := rfl
    rw [hred, he]
  have hd1 : decode_jis C [0xB0, 0xEC] = .ok (String.mk [c1]) := by
    have hred : decode_jis C [0xB0, 0xEC]
        = match C.jis_to_utf8 (bytes_to_u32 [0xB0, 0xEC]) with
          | some c => .ok (String.mk [c])
          | none => .error .jis := rfl
    rw [hred, show bytes_to_u32 [0xB0, 0xEC] = 0xB0EC from by decide, h1]
  have hd2 : decode_jis C [0xD2, 0xB1] = .ok (String.mk [c2]) := by
    have hred : decode_jis C [0xD2, 0xB1]
        = match C.jis_to_utf8 (bytes_to_u32 [0xD2, 0xB1]) with
          | some c => .ok (String.mk [c])
          | none => .error .jis := rfl
    rw [hred, show bytes_to_u32 [0xD2, 0xB1] = 0xD2B1 from by decide, h2]
  have hgb : ∀ b ∈ [(([] : List (List Nat)),
      (⟨[0x8F, 0xB0, 0xA1], [[0xB0, 0xEC], [0xD2, 0xB1]]⟩ : RawRec))],
      goodBlock C b := by
    intro b hb
    rw [List.mem_singleton] at hb
    subst hb
    refine ⟨by simp, ⟨⟨by decide, by decide, by decide, s, hdk⟩,
      by decide, by simp, ?_⟩⟩
    intro t ht
    simp only [List.mem_cons, List.mem_singleton] at ht
    rcases ht with rfl | rfl | h
    · exact ⟨by decide, by decide, by decide, String.mk [c1], hd1⟩
    · exact ⟨by decide, by decide, by decide, String.mk [c2], hd2⟩
    · simp at h
  have h := parse_bytes_blocks_err _ hgb (s := []) (nk_nil_err C)
  rw [List.append_nil] at h
  rw [show ([0x8F, 0xB0, 0xA1, 0x20, 0x3A, 0x20, 0xB0, 0xEC, 0x20, 0xD2,
      0xB1, 0x0A] : List Nat)
      = renderBlocks [(([] : List (List Nat)),
        (⟨[0x8F, 0xB0, 0xA1], [[0xB0, 0xEC], [0xD2, 0xB1]]⟩ : RawRec))]
    from by decide]
  rw [h]
  simp [recsOf, decOf, decodeOk, hdk, hd1, hd2]

/-- C7 (witness): `c7_scenario_b` under the example codecs, where the
3-byte token decodes to 丂 and the radical codes map to 一 and 勹. -/
theorem c7_witness :
    parse_bytes exampleCodecs
      [0x8F, 0xB0, 0xA1, 0x20, 0x3A, 0x20, 0xB0, 0xEC, 0x20, 0xD2, 0xB1, 0x0A]
      = .ok [⟨"丂", [String.mk ['一'], String.mk ['勹']]⟩] :=
  c7_scenario_b exampleCodecs "丂" '一' '勹' rfl rfl rfl

/-- C8: comment lines anywhere — before the first data line, between data
lines, consecutively, or after the last data line — produce no record: the
parse of a buffer of well-formed records with comment lines interleaved
equals the parse of the same buffer with every comment line removed (same
records, same order). -/
theorem c8_comments_transparent (C : Codecs) (blocks : List Block)
    (trail : List (List Nat))
    (hblocks : ∀ b ∈ blocks, goodBlock C b)
    (htrail : ∀ body ∈ trail, goodBody body) :
    parse_bytes C (renderBlocks blocks ++ renderComments trail)
      = parse_bytes C
          (renderBlocks (blocks.map (fun b => (([] : List (List Nat)), b.2)))) := by
  have h1 := parse_bytes_blocks_err blocks hblocks (s := renderComments trail)
    (nk_trail trail htrail)
  have hb2 : ∀ b ∈ blocks.map (fun b => (([] : List (List Nat)), b.2)),
      goodBlock C b := by
    intro b hb
    simp only [List.mem_map] at hb
    obtain ⟨a, ha, rfl⟩ := hb
    exact ⟨by simp, (hblocks a ha).2⟩
  have h2 := parse_bytes_blocks_err _ hb2 (s := []) (nk_nil_err C)
  rw [List.append_nil] at h2
  rw [h1, h2]
  cases blocks with
  | nil => simp
  | cons b bs => simp [recsOf]

/-- C8 (witness): `c8_comments_transparent` on a buffer with a leading and
a trailing comment line around the record `"亜 : 一\n"`: it parses the same
as the bare record. -/
theorem c8_witness :
    parse_bytes exampleCodecs
      [0x23, 0x63, 0x0A, 0xB0, 0xA1, 0x20, 0x3A, 0x20, 0xB0, 0xEC, 0x0A,
       0x23, 0x64, 0x0A]
      = parse_bytes exampleCodecs
          [0xB0, 0xA1, 0x20, 0x3A, 0x20, 0xB0, 0xEC, 0x0A] := by
  have h := c8_comments_transparent exampleCodecs
    [([[0x63]], ⟨[0xB0, 0xA1], [[0xB0, 0xEC]]⟩)] [[0x64]]
    (by
      intro b hb
      rw [List.mem_singleton] at hb
      subst hb
      refine ⟨?_, ⟨⟨by decide, by decide, by decide, "亜", by decide⟩,
        by decide, by simp, ?_⟩⟩
      · intro body hb2
        rw [List.mem_singleton] at hb2
        subst hb2
        simp [goodBody]
      · intro t ht
        rw [List.mem_singleton] at ht
        subst ht
        exact ⟨by decide, by decide, by decide, "一", by decide⟩)
    (by
      intro body hb2
      rw [List.mem_singleton] at hb2
      subst hb2
      simp [goodBody])
  rw [show ([0x23, 0x63, 0x0A, 0xB0, 0xA1, 0x20, 0x3A, 0x20, 0xB0, 0xEC,
      0x0A, 0x23, 0x64, 0x0A] : List Nat)
      = renderBlocks [([[0x63]], ⟨[0xB0, 0xA1], [[0xB0, 0xEC]]⟩)]
        ++ renderComments [[0x64]]
    from by decide]
  rw [show ([0xB0, 0xA1, 0x20, 0x3A, 0x20, 0xB0, 0xEC, 0x0A] : List Nat)
      = renderBlocks ([([[0x63]], ⟨[0xB0, 0xA1], [[0xB0, 0xEC]]⟩)].map
          (fun b => (([] : List (List Nat)), b.2)))
    from by decide]
  exact h

/-- C9: on every buffer on which the parse succeeds, every record's
radicals list is non-empty; and on buffers of well-formed records the
radicals of each record are exactly the decodings of that line's radical
tokens, in declaration order, with duplicates kept. -/
theorem c9_radicals_invariants (C : Codecs) :
    (∀ (b rest : List Nat) (recs : List Decomposition),
        lines C b = .ok (rest, recs) → ∀ d ∈ recs, d.radicals ≠ []) ∧
    (∀ (blocks : List Block) (trail : List (List Nat)),
        (∀ b ∈ blocks, goodBlock C b) → (∀ body ∈ trail, goodBody body) →
        blocks ≠ [] →
        parse_bytes C (renderBlocks blocks ++ renderComments trail)
          = .ok (blocks.map
              (fun b => ⟨decodeOk C b.2.k, b.2.rs.map (decodeOk C)⟩))) := by
  constructor
  · intro b rest recs h
    exact lines_ok_radicals h
  · intro blocks trail hb ht hne
    have h := parse_bytes_blocks_err blocks hb (nk_trail trail ht)
    rw [h]
    obtain ⟨x, xs, rfl⟩ := List.exists_cons_of_ne_nil hne
    simp [recsOf, decOf]

/-- C9 (witness): `c9_radicals_invariants` at the concrete successful parse
of `"亜 : 一\n"`: the returned record has a non-empty radicals list, and
parsing a rendered one-record buffer yields that line's decoded radicals. -/
theorem c9_witness :
    (∀ d ∈ [(⟨"亜", ["一"]⟩ : Decomposition)], d.radicals ≠ []) ∧
    parse_bytes exampleCodecs [0xB0, 0xA1, 0x20, 0x3A, 0x20, 0xB0, 0xEC, 0x0A]
      = .ok [⟨String.mk ['亜'], [String.mk ['一']]⟩] := by
  constructor
  · exact (c9_radicals_invariants exampleCodecs).1
      [0xB0, 0xA1, 0x20, 0x3A, 0x20, 0xB0, 0xEC, 0x0A] [0x0A]
      [⟨"亜", ["一"]⟩] (by decide)
  · have h := (c9_radicals_invariants exampleCodecs).2
      [(([] : List (List Nat)), (⟨[0xB0, 0xA1], [[0xB0, 0xEC]]⟩ : RawRec))] []
      (by
        intro b hb
        rw [List.mem_singleton] at hb
        subst hb
        refine ⟨by simp, ⟨⟨by decide, by decide, by decide, "亜", by decide⟩,
          by decide, by simp, ?_⟩⟩
        intro t ht
        rw [List.mem_singleton] at ht
        subst ht
        exact ⟨by decide, by decide, by decide, "一", by decide⟩)
      (by simp) (by simp)
    rw [show ([0xB0, 0xA1, 0x20, 0x3A, 0x20, 0xB0, 0xEC, 0x0A] : List Nat)
        = renderBlocks [(([] : List (List Nat)),
            (⟨[0xB0, 0xA1], [[0xB0, 0xEC]]⟩ : RawRec))] ++ renderComments []
      from by decide]
    rw [h]
    decide

end Krad
